import Mathlib

/-!
Verification of the onlook browser-sandbox core: the file-map model shared by the
SandpackAdapter, the UndoRedoManager stack machine, the snapshot history of
SandboxManager, the SessionManager connection loop and the poll-based file watcher.
Definitions are shallow embeddings of the TypeScript source; third-party Automerge
behaviour that the source relies on is modelled from its documented contract where noted.
-/

/-- A JavaScript object `Record<string, string>` modelled as an association list.
JS objects never hold duplicate keys; where a proof needs that fact it carries a
`keys.Nodup` hypothesis. -/
abbrev FMap := List (String × String)

namespace FMap

/-- Reading `obj[k]`: the entry with that key, or `undefined`. -/
def get : FMap → String → Option String
  | [], _ => none
  | p :: rest, k => if p.1 = k then some p.2 else get rest k

/-- The `k in obj` test. -/
def hasKey (m : FMap) (k : String) : Bool := (get m k).isSome

/-- Assignment `obj[k] = v`: replace the entry in place or append a fresh one. -/
def set : FMap → String → String → FMap
  | [], k, v => [(k, v)]
  | p :: rest, k, v => if p.1 = k then (k, v) :: rest else p :: set rest k v

/-- `delete obj[k]`. -/
def del : FMap → String → FMap
  | [], _ => []
  | p :: rest, k => if p.1 = k then del rest k else p :: del rest k

/-- `Object.keys(obj)`. -/
def keys (m : FMap) : List String := m.map (·.1)

/-- Extensional equality of two objects: same value at every key. -/
def EquivGet (m₁ m₂ : FMap) : Prop := ∀ k, get m₁ k = get m₂ k

theorem EquivGet.refl (m : FMap) : EquivGet m m := fun _ => rfl

theorem EquivGet.symm {m₁ m₂ : FMap} (h : EquivGet m₁ m₂) : EquivGet m₂ m₁ :=
  fun k => (h k).symm

theorem EquivGet.trans {m₁ m₂ m₃ : FMap} (h₁ : EquivGet m₁ m₂) (h₂ : EquivGet m₂ m₃) :
    EquivGet m₁ m₃ := fun k => (h₁ k).trans (h₂ k)

theorem get_set (m : FMap) (k v q : String) :
    get (set m k v) q = if q = k then some v else get m q := by
  induction m with
  | nil =>
    by_cases h : q = k
    · subst h; simp [set, get]
    · have h1 : ¬ k = q := fun hh => h hh.symm
      simp [set, get, if_neg h, if_neg h1]
  | cons p rest ih =>
    by_cases hp : p.1 = k
    · subst hp
      by_cases hq : q = p.1
      · subst hq; simp [set, get]
      · have h1 : ¬ p.1 = q := fun hh => hq hh.symm
        simp only [set, if_pos rfl, get, if_neg h1, if_neg hq]
    · simp only [set, if_neg hp, get]
      by_cases hq : p.1 = q
      · have hqk : ¬ q = k := fun h => hp (hq.trans h)
        simp only [if_pos hq, if_neg hqk]
      · simp only [if_neg hq, ih]

theorem get_del (m : FMap) (k q : String) :
    get (del m k) q = if q = k then none else get m q := by
  induction m with
  | nil => simp [del, get]
  | cons p rest ih =>
    by_cases hp : p.1 = k
    · subst hp
      by_cases hq : q = p.1
      · subst hq; simp [del, ih]
      · have h1 : ¬ p.1 = q := fun hh => hq hh.symm
        simp [del, get, if_neg h1, if_neg hq, ih]
    · simp only [del, if_neg hp, get]
      by_cases hq : p.1 = q
      · have hqk : ¬ q = k := fun h => hp (hq.trans h)
        simp only [if_pos hq, if_neg hqk]
      · simp only [if_neg hq, ih]

theorem mem_keys_of_mem {m : FMap} {q v : String} (h : (q, v) ∈ m) : q ∈ keys m :=
  List.mem_map_of_mem (·.1) h

theorem get_eq_some_mem {m : FMap} {q v : String} (h : get m q = some v) : (q, v) ∈ m := by
  induction m with
  | nil => simp [get] at h
  | cons p rest ih =>
    by_cases hp : p.1 = q
    · rw [get, if_pos hp] at h
      have h2 : p.2 = v := by injection h
      have hpq : p = (q, v) := by
        cases p; simp_all
      rw [hpq] at *
      exact List.mem_cons_self _ _
    · rw [get, if_neg hp] at h
      exact List.mem_cons_of_mem _ (ih h)

theorem get_none_of_not_mem {m : FMap} {q : String} (h : ∀ v, (q, v) ∉ m) :
    get m q = none := by
  cases hg : get m q with
  | none => rfl
  | some v => exact absurd (get_eq_some_mem hg) (h v)

theorem mem_get_isSome {m : FMap} {q v : String} (h : (q, v) ∈ m) :
    (get m q).isSome := by
  induction m with
  | nil => simp at h
  | cons p rest ih =>
    by_cases hp : p.1 = q
    · simp [get, hp]
    · rw [get, if_neg hp]
      rcases List.mem_cons.mp h with h1 | h1
      · exact absurd (congrArg Prod.fst h1).symm hp
      · exact ih h1

theorem get_isSome_iff_mem (m : FMap) (q : String) :
    (get m q).isSome ↔ ∃ v, (q, v) ∈ m := by
  constructor
  · intro h
    rcases Option.isSome_iff_exists.mp h with ⟨v, hv⟩
    exact ⟨v, get_eq_some_mem hv⟩
  · rintro ⟨v, hv⟩
    exact mem_get_isSome hv

theorem mem_get_eq_some {m : FMap} {q v : String} (hnd : (keys m).Nodup)
    (h : (q, v) ∈ m) : get m q = some v := by
  induction m with
  | nil => simp at h
  | cons p rest ih =>
    have hnd' : (p.1 :: keys rest).Nodup := by simpa [keys] using hnd
    have hnd2 : (keys rest).Nodup := (List.nodup_cons.mp hnd').2
    have hnotmem : p.1 ∉ keys rest := (List.nodup_cons.mp hnd').1
    rcases List.mem_cons.mp h with h1 | h1
    · rw [← h1]; simp [get]
    · have hp : ¬ p.1 = q := by
        intro hpq
        exact hnotmem (by rw [hpq]; exact mem_keys_of_mem h1)
      rw [get, if_neg hp]
      exact ih hnd2 h1

/-- `filter` keeps the entry for each key, so under `Nodup` it commutes with `get`. -/
theorem get_filter (m : FMap) (c : String × String → Bool) (hnd : (keys m).Nodup)
    (q : String) :
    get (List.filter c m) q =
      match get m q with
      | some v => if c (q, v) then some v else none
      | none => none := by
  induction m with
  | nil => simp [get]
  | cons p rest ih =>
    have hnd' : (p.1 :: keys rest).Nodup := by simpa [keys] using hnd
    have hnd2 : (keys rest).Nodup := (List.nodup_cons.mp hnd').2
    have hnotmem : p.1 ∉ keys rest := (List.nodup_cons.mp hnd').1
    by_cases hp : p.1 = q
    · subst hp
      have hrestf : get (List.filter c rest) p.1 = none := by
        apply get_none_of_not_mem
        intro v hv
        exact hnotmem (mem_keys_of_mem (List.mem_of_mem_filter hv))
      by_cases hc : c p
      · rw [List.filter_cons_of_pos hc]
        simp [get, Prod.mk.eta, hc]
      · rw [List.filter_cons_of_neg hc]
        rw [hrestf]
        have hcq : c (p.1, p.2) = false := by
          rw [Prod.mk.eta]; simpa using hc
        simp [get, hcq]
    · by_cases hc : c p
      · rw [List.filter_cons_of_pos hc]
        simp only [get, if_neg hp]
        exact ih hnd2
      · rw [List.filter_cons_of_neg hc]
        simp only [get, if_neg hp]
        exact ih hnd2

theorem keys_set (m : FMap) (k v : String) :
    keys (set m k v) = if hasKey m k then keys m else keys m ++ [k] := by
  induction m with
  | nil => simp [set, keys, hasKey, get]
  | cons p rest ih =>
    by_cases hp : p.1 = k
    · subst hp
      simp [set, keys, hasKey, get]
    · have hh : hasKey (p :: rest) k = hasKey rest k := by
        simp [hasKey, get, if_neg hp]
      rw [hh]
      by_cases hr : hasKey rest k
      · rw [if_pos hr]
        rw [if_pos hr] at ih
        simp only [set, if_neg hp, keys, List.map_cons] at ih ⊢
        rw [ih]
      · rw [if_neg hr]
        rw [if_neg hr] at ih
        simp only [set, if_neg hp, keys, List.map_cons, List.cons_append] at ih ⊢
        rw [ih]

theorem keys_del_sublist (m : FMap) (k : String) : (keys (del m k)).Sublist (keys m) := by
  induction m with
  | nil => simp [del, keys]
  | cons p rest ih =>
    by_cases hp : p.1 = k
    · rw [del, if_pos hp]
      simp only [keys, List.map_cons]
      exact ih.cons _
    · rw [del, if_neg hp]
      simp only [keys, List.map_cons]
      exact ih.cons₂ _

theorem nodup_keys_set {m : FMap} (hnd : (keys m).Nodup) (k v : String) :
    (keys (set m k v)).Nodup := by
  rw [keys_set]
  by_cases h : hasKey m k
  · rw [if_pos h]; exact hnd
  · rw [if_neg h]
    have hk : k ∉ keys m := by
      intro hmem
      rcases List.mem_map.mp hmem with ⟨p, hp, hpk⟩
      have hm : (k, p.2) ∈ m := by
        have hpe : p = (k, p.2) := by cases p; simp_all
        exact hpe ▸ hp
      exact h (mem_get_isSome hm)
    exact hnd.append (List.nodup_singleton k)
      (fun a ha hb => hk ((List.mem_singleton.mp hb) ▸ ha))

theorem nodup_keys_del {m : FMap} (hnd : (keys m).Nodup) (k : String) :
    (keys (del m k)).Nodup := (keys_del_sublist m k).nodup hnd

end FMap

/-!
## Patches and diff (UndoRedoManager, src/unnamed/part_002)

Every mutation this program performs on the Automerge document assigns or deletes whole
entries of `d.files` (SandboxManager callbacks, restoreSnapshot, UndoRedoManager replay),
so the patches `Automerge.diff` produces for it are `put`/`del` at paths `['files', key]`.
`MapPatch` is that patch shape; `applyPatch` is `UndoRedoManager.applyPatch`
(part_002 lines 106-180) specialised to those paths: navigation to the parent container
lands on the files map, `put` assigns `current[key] = value` and `del` executes
`delete current[key]` on the object.
-/

inductive MapPatch where
  | put (key value : String)
  | del (key : String)
deriving DecidableEq, Repr

/-- `UndoRedoManager.applyPatch` at paths `['files', key]`. -/
def applyPatch (m : FMap) : MapPatch → FMap
  | .put k v => FMap.set m k v
  | .del k => FMap.del m k

/-- `UndoRedoManager.applyPatches` (part_002 lines 100-104): apply in order. -/
def applyPatches (m : FMap) (ps : List MapPatch) : FMap :=
  ps.foldl applyPatch m

/-- Modelled from the spec: `Automerge.diff(doc, from, to)` is third-party code; per
§4.1/invariant 2 it returns the patch sequence transforming the projection at `from`
into the projection at `to`. At files-map granularity that is a `del` for every key
absent in the target and a `put` for every key whose value differs. -/
def diffMaps (m₁ m₂ : FMap) : List MapPatch :=
  ((m₁.filter (fun p => (FMap.get m₂ p.1).isNone)).map (fun p => MapPatch.del p.1))
    ++ ((m₂.filter (fun p => FMap.get m₁ p.1 ≠ some p.2)).map
        (fun p => MapPatch.put p.1 p.2))

theorem applyPatches_append (m : FMap) (ps qs : List MapPatch) :
    applyPatches m (ps ++ qs) = applyPatches (applyPatches m ps) qs :=
  List.foldl_append _ _ _ _

/-- Folding a list of `del` patches removes exactly the listed keys. -/
theorem get_applyPatches_dels (ks : List String) (m : FMap) (q : String) :
    FMap.get (applyPatches m (ks.map MapPatch.del)) q =
      if q ∈ ks then none else FMap.get m q := by
  induction ks generalizing m with
  | nil => simp [applyPatches]
  | cons k rest ih =>
    simp only [List.map_cons, applyPatches, List.foldl_cons, applyPatch]
    rw [show List.foldl applyPatch (FMap.del m k) (rest.map MapPatch.del)
          = applyPatches (FMap.del m k) (rest.map MapPatch.del) from rfl, ih]
    by_cases hq : q ∈ rest
    · simp [hq]
    · simp only [if_neg hq, FMap.get_del]
      by_cases hqk : q = k
      · simp [hqk]
      · simp [hqk, List.mem_cons, hq]

/-- Folding a list of `put` patches: a key untouched by the list keeps its value. -/
theorem get_applyPatches_puts_not_mem (l : FMap) (m : FMap) (q : String)
    (h : q ∉ FMap.keys l) :
    FMap.get (applyPatches m (l.map (fun p => MapPatch.put p.1 p.2))) q =
      FMap.get m q := by
  induction l generalizing m with
  | nil => simp [applyPatches]
  | cons p rest ih =>
    simp only [FMap.keys, List.map_cons, List.mem_cons, not_or] at h
    simp only [List.map_cons, applyPatches, List.foldl_cons, applyPatch]
    rw [show List.foldl applyPatch (FMap.set m p.1 p.2) (rest.map fun p => MapPatch.put p.1 p.2)
          = applyPatches (FMap.set m p.1 p.2) (rest.map fun p => MapPatch.put p.1 p.2) from rfl]
    rw [ih _ (by simpa [FMap.keys] using h.2), FMap.get_set]
    simp [h.1]

/-- Folding `put` patches built from an object with distinct keys: the object's entries
win, everything else is preserved. -/
theorem get_applyPatches_puts (l : FMap) (hnd : (FMap.keys l).Nodup) (m : FMap)
    (q : String) :
    FMap.get (applyPatches m (l.map (fun p => MapPatch.put p.1 p.2))) q =
      (FMap.get l q).or (FMap.get m q) := by
  induction l generalizing m with
  | nil => simp [applyPatches, FMap.get]
  | cons p rest ih =>
    have hnd' : (p.1 :: FMap.keys rest).Nodup := by simpa [FMap.keys] using hnd
    have hnd2 : (FMap.keys rest).Nodup := (List.nodup_cons.mp hnd').2
    have hnotmem : p.1 ∉ FMap.keys rest := (List.nodup_cons.mp hnd').1
    simp only [List.map_cons, applyPatches, List.foldl_cons, applyPatch]
    rw [show List.foldl applyPatch (FMap.set m p.1 p.2) (rest.map fun p => MapPatch.put p.1 p.2)
          = applyPatches (FMap.set m p.1 p.2) (rest.map fun p => MapPatch.put p.1 p.2) from rfl]
    by_cases hq : p.1 = q
    · subst hq
      rw [get_applyPatches_puts_not_mem rest _ _ hnotmem, FMap.get_set]
      simp [FMap.get]
    · rw [ih hnd2, FMap.get_set]
      have h1 : ¬ q = p.1 := fun hh => hq hh.symm
      simp [FMap.get, if_neg hq, if_neg h1]

/-- Replaying `diffMaps m₁ m₂` on `m₁` with the source `applyPatch` yields exactly `m₂`
(extensionally), provided the target is a genuine JS object (distinct keys). -/
theorem get_applyPatches_diffMaps (m₁ m₂ : FMap) (hnd₂ : (FMap.keys m₂).Nodup)
    (q : String) :
    FMap.get (applyPatches m₁ (diffMaps m₁ m₂)) q = FMap.get m₂ q := by
  unfold diffMaps
  rw [show (m₁.filter (fun p => (FMap.get m₂ p.1).isNone)).map (fun p => MapPatch.del p.1)
        = ((m₁.filter (fun p => (FMap.get m₂ p.1).isNone)).map (·.1)).map MapPatch.del by
      simp [List.map_map]]
  have hndPuts : (FMap.keys (m₂.filter (fun p => FMap.get m₁ p.1 ≠ some p.2))).Nodup := by
    have hsub : (FMap.keys (m₂.filter (fun p => FMap.get m₁ p.1 ≠ some p.2))).Sublist
        (FMap.keys m₂) := by
      simpa [FMap.keys] using ((@List.filter_sublist _ _ m₂).map (·.1))
    exact hsub.nodup hnd₂
  rw [applyPatches_append, get_applyPatches_puts _ hndPuts, get_applyPatches_dels]
  have hdelmem : (q ∈ (m₁.filter (fun p => (FMap.get m₂ p.1).isNone)).map (·.1)) ↔
      ((FMap.get m₁ q).isSome ∧ (FMap.get m₂ q).isNone) := by
    constructor
    · intro h
      rcases List.mem_map.mp h with ⟨p, hp, hpq⟩
      have hmem := List.mem_of_mem_filter hp
      have hcond := List.of_mem_filter hp
      subst hpq
      refine ⟨@FMap.mem_get_isSome m₁ p.1 p.2 ?_, by simpa using hcond⟩
      simpa using hmem
    · rintro ⟨h1, h2⟩
      rcases Option.isSome_iff_exists.mp h1 with ⟨v, hv⟩
      have hmem := FMap.get_eq_some_mem hv
      exact List.mem_map.mpr ⟨(q, v), List.mem_filter.mpr ⟨hmem, by simpa using h2⟩, rfl⟩
  cases h2 : FMap.get m₂ q with
  | none =>
    have hput : FMap.get (m₂.filter (fun p => FMap.get m₁ p.1 ≠ some p.2)) q = none := by
      apply FMap.get_none_of_not_mem
      intro v hv
      have hsome := @FMap.mem_get_isSome m₂ q v (List.mem_of_mem_filter hv)
      rw [h2] at hsome
      simp at hsome
    rw [hput, Option.none_or]
    cases h1 : FMap.get m₁ q with
    | some v =>
      rw [if_pos (hdelmem.mpr ⟨by simp [h1], by simp [h2]⟩)]
    | none =>
      rw [if_neg (fun hmem => by
        have hs := (hdelmem.mp hmem).1
        rw [h1] at hs
        simp at hs)]
  | some v =>
    have hfil : FMap.get (m₂.filter (fun p => FMap.get m₁ p.1 ≠ some p.2)) q =
        (if (decide (FMap.get m₁ q ≠ some v)) then some v else none) := by
      rw [FMap.get_filter _ _ hnd₂, h2]
    by_cases h1 : FMap.get m₁ q = some v
    · have hnodel : ¬ (q ∈ (m₁.filter (fun p => (FMap.get m₂ p.1).isNone)).map (·.1)) := by
        intro hmem
        have hn := (hdelmem.mp hmem).2
        rw [h2] at hn
        simp at hn
      rw [hfil]
      simp [h1, hnodel]
    · rw [hfil]
      simp [h1]

theorem nodup_keys_applyPatches {m : FMap} (hnd : (FMap.keys m).Nodup) (ps : List MapPatch) :
    (FMap.keys (applyPatches m ps)).Nodup := by
  induction ps generalizing m with
  | nil => exact hnd
  | cons p rest ih =>
    simp only [applyPatches, List.foldl_cons]
    cases p with
    | put k v => exact ih (FMap.nodup_keys_set hnd k v)
    | del k => exact ih (FMap.nodup_keys_del hnd k)

/-- An empty diff means the two projections already agree at every key. -/
theorem diffMaps_eq_nil_equiv {m₁ m₂ : FMap} (h : diffMaps m₁ m₂ = []) :
    FMap.EquivGet m₁ m₂ := by
  unfold diffMaps at h
  rcases List.append_eq_nil.mp h with ⟨hd, hp⟩
  rw [List.map_eq_nil_iff] at hd hp
  have hdel : ∀ p ∈ m₁, ¬ (FMap.get m₂ p.1).isNone := by
    intro p hp1 hcond
    have hm : p ∈ m₁.filter (fun p => (FMap.get m₂ p.1).isNone) :=
      List.mem_filter.mpr ⟨hp1, by simpa using hcond⟩
    rw [hd] at hm
    simp at hm
  have hput : ∀ p ∈ m₂, FMap.get m₁ p.1 = some p.2 := by
    intro p hp2
    by_contra hne
    have hm : p ∈ m₂.filter (fun p => FMap.get m₁ p.1 ≠ some p.2) :=
      List.mem_filter.mpr ⟨hp2, by simpa using hne⟩
    rw [hp] at hm
    simp at hm
  intro q
  cases h1 : FMap.get m₁ q with
  | some v =>
    have hmem := FMap.get_eq_some_mem h1
    have h2 := hdel _ hmem
    cases h2' : FMap.get m₂ q with
    | none => exact absurd (by simp [h2']) h2
    | some w =>
      have hq := hput _ (FMap.get_eq_some_mem h2')
      rw [h1] at hq
      exact hq
  | none =>
    cases h2' : FMap.get m₂ q with
    | none => rfl
    | some w =>
      have hq := hput _ (FMap.get_eq_some_mem h2')
      rw [h1] at hq
      exact absurd hq (by simp)

/-!
## The UndoRedoManager state machine (src/unnamed/part_002 lines 5-187)

The Automerge document is modelled through its files projection: `AMDoc.states` is the
list of successive document states, one per recorded change, and a `Heads` value is the
index of the state it identifies (Automerge heads name a unique document state).
`docSync()`/`getHeads()` give the last state.
-/

structure AMDoc where
  states : List FMap

/-- The index named by `Automerge.getHeads(doc)`: the latest state. -/
def AMDoc.headsId (d : AMDoc) : Nat := d.states.length - 1

/-- The files projection at a given heads value. -/
def AMDoc.projAt (d : AMDoc) (h : Nat) : FMap := d.states.getD h []

/-- The current files projection of the document. -/
def AMDoc.latest (d : AMDoc) : FMap := d.projAt d.headsId

theorem AMDoc.projAt_mem (d : AMDoc) {n : Nat} (h : n < d.states.length) :
    d.projAt n ∈ d.states := by
  unfold AMDoc.projAt
  rw [List.getD_eq_getElem _ _ h]
  exact List.getElem_mem _

theorem AMDoc.projAt_of_prefix {d d' : AMDoc} (h : List.IsPrefix d.states d'.states)
    {n : Nat} (hn : n < d.states.length) : d'.projAt n = d.projAt n := by
  obtain ⟨l, hl⟩ := h
  unfold AMDoc.projAt
  rw [← hl, List.getD_append _ _ _ _ hn]

theorem AMDoc.latest_append (states : List FMap) (m : FMap) :
    AMDoc.latest ⟨states ++ [m]⟩ = m := by
  unfold AMDoc.latest AMDoc.projAt AMDoc.headsId
  simp only [List.length_append, List.length_singleton, Nat.add_sub_cancel]
  rw [List.getD_append_right _ _ _ _ (Nat.le_refl _)]
  simp

/-- `UndoRedoManager` fields (part_002 lines 5-9): undo/redo stacks of observed heads and
the last known heads, over the shared document handle. -/
structure URState where
  doc : AMDoc
  undoStack : List Nat
  redoStack : List Nat
  currentHeads : Nat

/-- An external edit observed while the manager is Idle: `handle.change` records a new
document state `m` under fresh heads, and the `onChange` observer (part_002 lines 20-31)
sees heads different from `currentHeads`, so it pushes the old heads on the undo stack,
clears the redo stack, and updates the last known heads. -/
def URState.edit (s : URState) (m : FMap) : URState :=
  { doc := ⟨s.doc.states ++ [m]⟩
    undoStack := s.undoStack ++ [s.currentHeads]
    redoStack := []
    currentHeads := s.doc.states.length }

/-- `applyHeads` (part_002 lines 74-98): diff from the document's actual heads to the
target heads, replay the patches inside a `handle.change` with the observer suppressed
(recording one new state when the patch list is non-empty), then record the target as the
last known heads. -/
def URState.applyHeads (s : URState) (heads : Nat) : URState :=
  { s with
    doc := if (diffMaps s.doc.latest (s.doc.projAt heads)).isEmpty then s.doc
           else ⟨s.doc.states ++
             [applyPatches s.doc.latest (diffMaps s.doc.latest (s.doc.projAt heads))]⟩
    currentHeads := heads }

/-- `undo()` (part_002 lines 33-52): no-op on an empty stack, else pop the target heads,
push the current heads on the redo stack and replay. -/
def URState.undo (s : URState) : URState :=
  match s.undoStack.getLast? with
  | none => s
  | some t =>
    URState.applyHeads
      { s with undoStack := s.undoStack.dropLast
               redoStack := s.redoStack ++ [s.currentHeads] } t

/-- `redo()` (part_002 lines 54-72): symmetric to `undo()`. -/
def URState.redo (s : URState) : URState :=
  match s.redoStack.getLast? with
  | none => s
  | some t =>
    URState.applyHeads
      { s with redoStack := s.redoStack.dropLast
               undoStack := s.undoStack ++ [s.currentHeads] } t

/-- `undo()` iterated. -/
def URState.undoN (s : URState) : Nat → URState
  | 0 => s
  | n + 1 => URState.undoN s.undo n

/-- A sequence of external edits, each observed by the manager. -/
def URState.editN (s : URState) (edits : List FMap) : URState :=
  edits.foldl URState.edit s

/-- Invariant of reachable manager states: the stacks and last known heads reference
existing document states, every state is a genuine JS object, and the last known heads
name the current projection. -/
structure URInv (s : URState) : Prop where
  nonempty : 0 < s.doc.states.length
  nodupAll : ∀ m ∈ s.doc.states, (FMap.keys m).Nodup
  curLt : s.currentHeads < s.doc.states.length
  undoLt : ∀ t ∈ s.undoStack, t < s.doc.states.length
  redoLt : ∀ t ∈ s.redoStack, t < s.doc.states.length
  curProj : FMap.EquivGet (s.doc.projAt s.currentHeads) s.doc.latest

theorem URState.applyHeads_spec (s : URState) (heads : Nat)
    (hnd : ∀ m ∈ s.doc.states, (FMap.keys m).Nodup)
    (hh : heads < s.doc.states.length) :
    (s.applyHeads heads).currentHeads = heads ∧
    (s.applyHeads heads).undoStack = s.undoStack ∧
    (s.applyHeads heads).redoStack = s.redoStack ∧
    List.IsPrefix s.doc.states (s.applyHeads heads).doc.states ∧
    FMap.EquivGet ((s.applyHeads heads).doc.latest) (s.doc.projAt heads) ∧
    (∀ m ∈ (s.applyHeads heads).doc.states, (FMap.keys m).Nodup) := by
  by_cases hemp : (diffMaps s.doc.latest (s.doc.projAt heads)).isEmpty
  · have hdoc : (s.applyHeads heads).doc = s.doc := by
      unfold URState.applyHeads
      rw [if_pos hemp]
    refine ⟨rfl, rfl, rfl, ?_, ?_, ?_⟩
    · rw [hdoc]
    · rw [hdoc]
      exact diffMaps_eq_nil_equiv (List.isEmpty_iff.mp hemp)
    · rw [hdoc]
      exact hnd
  · have hdoc : (s.applyHeads heads).doc =
        ⟨s.doc.states ++ [applyPatches s.doc.latest (diffMaps s.doc.latest (s.doc.projAt heads))]⟩ := by
      unfold URState.applyHeads
      rw [if_neg hemp]
    have hlat : s.doc.latest ∈ s.doc.states := by
      apply AMDoc.projAt_mem
      unfold AMDoc.headsId
      omega
    refine ⟨rfl, rfl, rfl, ?_, ?_, ?_⟩
    · rw [hdoc]
      exact List.prefix_append _ _
    · rw [hdoc, AMDoc.latest_append]
      intro q
      exact get_applyPatches_diffMaps _ _ (hnd _ (AMDoc.projAt_mem s.doc hh)) q
    · rw [hdoc]
      intro m hm
      rcases List.mem_append.mp hm with hm | hm
      · exact hnd _ hm
      · rw [List.mem_singleton.mp hm]
        exact nodup_keys_applyPatches (hnd _ hlat) _

theorem URState.undo_spec (s : URState) (inv : URInv s) (us : List Nat) (t : Nat)
    (hstack : s.undoStack = us ++ [t]) :
    s.undo.undoStack = us ∧
    s.undo.redoStack = s.redoStack ++ [s.currentHeads] ∧
    s.undo.currentHeads = t ∧
    List.IsPrefix s.doc.states s.undo.doc.states ∧
    FMap.EquivGet s.undo.doc.latest (s.doc.projAt t) ∧
    URInv s.undo := by
  have ht : t < s.doc.states.length :=
    inv.undoLt t (by rw [hstack]; exact List.mem_append_right _ (List.mem_singleton_self t))
  have hlast : s.undoStack.getLast? = some t := by
    rw [hstack]; exact List.getLast?_concat _
  have hdrop : s.undoStack.dropLast = us := by
    rw [hstack]; exact List.dropLast_concat
  set s₁ : URState :=
    { s with undoStack := s.undoStack.dropLast
             redoStack := s.redoStack ++ [s.currentHeads] } with hs₁
  have happ := URState.applyHeads_spec s₁ t inv.nodupAll ht
  have hundo : s.undo = s₁.applyHeads t := by
    unfold URState.undo
    rw [hlast]
  rw [hundo]
  obtain ⟨hc, hu, hr, hpre, heq, hndAll⟩ := happ
  refine ⟨by rw [hu, hs₁]; exact hdrop, by rw [hr], hc, hpre, heq, ?_⟩
  constructor
  · exact Nat.lt_of_lt_of_le inv.nonempty (by simpa using hpre.length_le)
  · exact hndAll
  · rw [hc]; exact Nat.lt_of_lt_of_le ht (by simpa using hpre.length_le)
  · intro x hx
    rw [hu, hs₁] at hx
    simp only at hx
    rw [hdrop] at hx
    have : x ∈ s.undoStack := by rw [hstack]; exact List.mem_append_left _ hx
    exact Nat.lt_of_lt_of_le (inv.undoLt x this) (by simpa using hpre.length_le)
  · intro x hx
    rw [hr, hs₁] at hx
    simp only at hx
    rcases List.mem_append.mp hx with hx | hx
    · exact Nat.lt_of_lt_of_le (inv.redoLt x hx) (by simpa using hpre.length_le)
    · rw [List.mem_singleton.mp hx]
      exact Nat.lt_of_lt_of_le inv.curLt (by simpa using hpre.length_le)
  · rw [hc]
    have hproj : (s₁.applyHeads t).doc.projAt t = s.doc.projAt t :=
      AMDoc.projAt_of_prefix hpre ht
    rw [hproj]
    exact heq.symm

theorem URState.redo_spec (s : URState) (inv : URInv s) (rs : List Nat) (t : Nat)
    (hstack : s.redoStack = rs ++ [t]) :
    s.redo.redoStack = rs ∧
    s.redo.undoStack = s.undoStack ++ [s.currentHeads] ∧
    s.redo.currentHeads = t ∧
    List.IsPrefix s.doc.states s.redo.doc.states ∧
    FMap.EquivGet s.redo.doc.latest (s.doc.projAt t) ∧
    URInv s.redo := by
  have ht : t < s.doc.states.length :=
    inv.redoLt t (by rw [hstack]; exact List.mem_append_right _ (List.mem_singleton_self t))
  have hlast : s.redoStack.getLast? = some t := by
    rw [hstack]; exact List.getLast?_concat _
  have hdrop : s.redoStack.dropLast = rs := by
    rw [hstack]; exact List.dropLast_concat
  set s₁ : URState :=
    { s with redoStack := s.redoStack.dropLast
             undoStack := s.undoStack ++ [s.currentHeads] } with hs₁
  have happ := URState.applyHeads_spec s₁ t inv.nodupAll ht
  have hredo : s.redo = s₁.applyHeads t := by
    unfold URState.redo
    rw [hlast]
  rw [hredo]
  obtain ⟨hc, hu, hr, hpre, heq, hndAll⟩ := happ
  refine ⟨by rw [hr, hs₁]; exact hdrop, by rw [hu], hc, hpre, heq, ?_⟩
  constructor
  · exact Nat.lt_of_lt_of_le inv.nonempty (by simpa using hpre.length_le)
  · exact hndAll
  · rw [hc]; exact Nat.lt_of_lt_of_le ht (by simpa using hpre.length_le)
  · intro x hx
    rw [hu, hs₁] at hx
    simp only at hx
    rcases List.mem_append.mp hx with hx | hx
    · exact Nat.lt_of_lt_of_le (inv.undoLt x hx) (by simpa using hpre.length_le)
    · rw [List.mem_singleton.mp hx]
      exact Nat.lt_of_lt_of_le inv.curLt (by simpa using hpre.length_le)
  · intro x hx
    rw [hr, hs₁] at hx
    simp only at hx
    rw [hdrop] at hx
    have : x ∈ s.redoStack := by rw [hstack]; exact List.mem_append_left _ hx
    exact Nat.lt_of_lt_of_le (inv.redoLt x this) (by simpa using hpre.length_le)
  · rw [hc]
    have hproj : (s₁.applyHeads t).doc.projAt t = s.doc.projAt t :=
      AMDoc.projAt_of_prefix hpre ht
    rw [hproj]
    exact heq.symm

theorem URState.edit_spec (s : URState) (inv : URInv s) (m : FMap)
    (hm : (FMap.keys m).Nodup) :
    (s.edit m).doc.states = s.doc.states ++ [m] ∧
    (s.edit m).undoStack = s.undoStack ++ [s.currentHeads] ∧
    (s.edit m).currentHeads = s.doc.states.length ∧
    URInv (s.edit m) := by
  have hproj : (s.edit m).doc.projAt s.doc.states.length = m := by
    show (AMDoc.mk (s.doc.states ++ [m])).projAt s.doc.states.length = m
    unfold AMDoc.projAt
    rw [List.getD_append_right _ _ _ _ (Nat.le_refl _)]
    simp
  have hlat : (s.edit m).doc.latest = m := AMDoc.latest_append _ _
  refine ⟨rfl, rfl, rfl, ?_, ?_, ?_, ?_, ?_, ?_⟩
  · show 0 < (s.doc.states ++ [m]).length
    simp
  · intro x hx
    rcases List.mem_append.mp hx with hx | hx
    · exact inv.nodupAll _ hx
    · rw [List.mem_singleton.mp hx]; exact hm
  · show s.doc.states.length < (s.doc.states ++ [m]).length
    simp
  · intro t ht
    show t < (s.doc.states ++ [m]).length
    simp only [List.length_append, List.length_singleton]
    rcases List.mem_append.mp ht with ht | ht
    · have := inv.undoLt t ht
      omega
    · rw [List.mem_singleton.mp ht]
      have := inv.curLt
      omega
  · intro t ht
    exact absurd ht (List.not_mem_nil t)
  · show FMap.EquivGet ((s.edit m).doc.projAt s.doc.states.length) ((s.edit m).doc.latest)
    rw [hproj, hlat]
    exact FMap.EquivGet.refl m

theorem URState.undoN_spec (ts : List Nat) :
    ∀ (s : URState), URInv s → ∀ us, s.undoStack = us ++ ts →
    URInv (s.undoN ts.length) ∧
    (s.undoN ts.length).undoStack = us ∧
    List.IsPrefix s.doc.states (s.undoN ts.length).doc.states ∧
    (∀ t, ts.head? = some t →
      (s.undoN ts.length).currentHeads = t ∧
      FMap.EquivGet (s.undoN ts.length).doc.latest (s.doc.projAt t)) := by
  induction ts using List.reverseRecOn with
  | nil =>
    intro s inv us h
    exact ⟨inv, by simpa using h, List.prefix_refl _, fun t ht => by simp at ht⟩
  | append_singleton ts' tl ih =>
    intro s inv us hstack
    have hstack' : s.undoStack = (us ++ ts') ++ [tl] := by rw [hstack, List.append_assoc]
    obtain ⟨hu, hr, hc, hpre, heq, inv'⟩ := URState.undo_spec s inv (us ++ ts') tl hstack'
    have hlen : (ts' ++ [tl]).length = ts'.length + 1 := by simp
    rw [hlen]
    have hstep : s.undoN (ts'.length + 1) = s.undo.undoN ts'.length := rfl
    rw [hstep]
    obtain ⟨inv₂, hu₂, hpre₂, hhead₂⟩ := ih s.undo inv' us hu
    refine ⟨inv₂, hu₂, hpre.trans hpre₂, ?_⟩
    intro t ht
    cases hts : ts' with
    | nil =>
      subst hts
      simp only [List.nil_append, List.head?_cons, Option.some.injEq] at ht
      rw [← ht]
      refine ⟨?_, ?_⟩
      · show (s.undo.undoN 0).currentHeads = tl
        exact hc
      · show FMap.EquivGet (s.undo.undoN 0).doc.latest (s.doc.projAt tl)
        exact heq
    | cons h0 rest =>
      subst hts
      have hht : ((h0 :: rest) ++ [tl]).head? = some h0 := rfl
      rw [hht, Option.some.injEq] at ht
      rw [← ht]
      obtain ⟨hcur, heqv⟩ := hhead₂ h0 rfl
      refine ⟨hcur, ?_⟩
      have htlt : h0 < s.doc.states.length := by
        apply inv.undoLt
        rw [hstack]
        exact List.mem_append_right _ (List.mem_append_left _ (List.mem_cons_self _ _))
      have hproj : s.undo.doc.projAt h0 = s.doc.projAt h0 :=
        AMDoc.projAt_of_prefix hpre htlt
      rw [hproj] at heqv
      exact heqv

theorem URState.editN_spec (edits : List FMap) :
    ∀ (s : URState), URInv s → (∀ m ∈ edits, (FMap.keys m).Nodup) →
    URInv (s.editN edits) ∧
    (s.editN edits).doc.states = s.doc.states ++ edits ∧
    ∃ ts : List Nat,
      (s.editN edits).undoStack = s.undoStack ++ ts ∧
      ts.length = edits.length ∧
      (edits ≠ [] → ts.head? = some s.currentHeads) := by
  induction edits with
  | nil =>
    intro s inv _
    exact ⟨inv, by simp [URState.editN], [], by simp [URState.editN], rfl, by simp⟩
  | cons e rest ih =>
    intro s inv hnd
    obtain ⟨hstates, hundo, hcur, inv₁⟩ :=
      URState.edit_spec s inv e (hnd e (List.mem_cons_self _ _))
    have hstep : s.editN (e :: rest) = (s.edit e).editN rest := rfl
    rw [hstep]
    obtain ⟨inv₂, hst₂, ts, hts, htlen, _⟩ :=
      ih (s.edit e) inv₁ (fun m hm => hnd m (List.mem_cons_of_mem _ hm))
    refine ⟨inv₂, ?_, s.currentHeads :: ts, ?_, by simp [htlen], fun _ => rfl⟩
    · rw [hst₂, hstates, List.append_assoc, List.singleton_append]
    · rw [hts, hundo, List.append_assoc, List.singleton_append]

/-- C1: for every reachable manager state and every sequence of `n` edits observed while
idle, `n` calls to `undo()` restore the files projection exactly to its state before the
first edit; and for any reachable state with a non-empty undo stack, `redo()` immediately
after `undo()` restores exactly the projection the undo removed. -/
theorem undo_n_restores_and_redo_reverts (s0 : URState) (inv : URInv s0)
    (edits : List FMap) (hnd : ∀ m ∈ edits, (FMap.keys m).Nodup) :
    FMap.EquivGet ((URState.undoN (URState.editN s0 edits) edits.length).doc.latest)
      s0.doc.latest ∧
    (∀ s : URState, URInv s → ∀ us t, s.undoStack = us ++ [t] →
      FMap.EquivGet s.undo.redo.doc.latest s.doc.latest) := by
  constructor
  · obtain ⟨inv₁, hstates, ts, hts, htlen, hthead⟩ := URState.editN_spec edits s0 inv hnd
    cases edits with
    | nil => exact FMap.EquivGet.refl _
    | cons e rest =>
      have hhead := hthead (by simp)
      rw [← htlen]
      obtain ⟨inv₂, hu₂, hpre₂, hhead₂⟩ :=
        URState.undoN_spec ts (URState.editN s0 (e :: rest)) inv₁ s0.undoStack hts
      obtain ⟨hcur, heqv⟩ := hhead₂ s0.currentHeads hhead
      have hpre₁ : List.IsPrefix s0.doc.states (URState.editN s0 (e :: rest)).doc.states :=
        ⟨e :: rest, hstates.symm⟩
      have hproj : (URState.editN s0 (e :: rest)).doc.projAt s0.currentHeads
          = s0.doc.projAt s0.currentHeads :=
        AMDoc.projAt_of_prefix hpre₁ inv.curLt
      rw [hproj] at heqv
      exact heqv.trans inv.curProj
  · intro s sinv us t hstack
    obtain ⟨hu, hr, hc, hpre, heq, inv'⟩ := URState.undo_spec s sinv us t hstack
    obtain ⟨hr₂, hu₂, hc₂, hpre₂, heq₂, inv₂⟩ :=
      URState.redo_spec s.undo inv' s.redoStack s.currentHeads hr
    have hproj : s.undo.doc.projAt s.currentHeads = s.doc.projAt s.currentHeads :=
      AMDoc.projAt_of_prefix hpre sinv.curLt
    rw [hproj] at heq₂
    exact heq₂.trans sinv.curProj

theorem undo_n_restores_and_redo_reverts_witness :
    FMap.EquivGet
      ((URState.undoN
        (URState.editN ⟨⟨[[("/a.js", "1")]]⟩, [], [], 0⟩ [[("/a.js", "2")]]) 1).doc.latest)
      (⟨⟨[[("/a.js", "1")]]⟩, [], [], 0⟩ : URState).doc.latest := by
  have h := undo_n_restores_and_redo_reverts ⟨⟨[[("/a.js", "1")]]⟩, [], [], 0⟩
    ⟨by decide, by decide, by decide, by decide, by decide, FMap.EquivGet.refl _⟩
    [[("/a.js", "2")]] (by decide)
  exact h.1

/-- C9: `undo()` with an empty undo stack and `redo()` with an empty redo stack are
no-ops: no error is raised and the document, the undo stack and the redo stack are all
left unchanged. -/
theorem undo_redo_empty_noop (s : URState) :
    (s.undoStack = [] → s.undo = s) ∧ (s.redoStack = [] → s.redo = s) := by
  constructor
  · intro h
    unfold URState.undo
    rw [h]
    rfl
  · intro h
    unfold URState.redo
    rw [h]
    rfl

theorem undo_redo_empty_noop_witness :
    (⟨⟨[[("/a.js", "1")]]⟩, [], [], 0⟩ : URState).undo = ⟨⟨[[("/a.js", "1")]]⟩, [], [], 0⟩ ∧
    (⟨⟨[[("/a.js", "1")]]⟩, [], [], 0⟩ : URState).redo = ⟨⟨[[("/a.js", "1")]]⟩, [], [], 0⟩ :=
  ⟨(undo_redo_empty_noop _).1 rfl, (undo_redo_empty_noop _).2 rfl⟩

/-!
## Snapshot history (SandboxManager, src/unnamed/part_002 lines 657-748)

The Automerge document handle is modelled as the chronological list of its changes:
`Automerge.getHistory(doc)` yields one entry per change carrying the change's message and
the files snapshot at that point; a change hash is modelled as the index of its entry
(hashes identify changes uniquely). `handle.change(fn, { message })` appends one entry
whose files map is the mutated copy of the latest one; `createSnapshot` always mutates
`metadata.lastSnapshot`, so its change is always recorded.
-/

/-- The JS truthiness test `!snapshotFiles[path]`: `undefined` and `""` are falsy. -/
def jsFalsy : Option String → Bool
  | none => true
  | some s => s = ""

structure HistEntry where
  files : FMap
  message : String
deriving DecidableEq, Repr

structure HistDoc where
  entries : List HistEntry
deriving DecidableEq, Repr

/-- The current files projection (the snapshot of the last change). -/
def HistDoc.latestFiles (d : HistDoc) : FMap :=
  (d.entries.getLastD ⟨[], ""⟩).files

/-- `createSnapshot(message)` (part_002 lines 657-667): a metadata-stamping change tagged
with the message; the files map is untouched. -/
def createSnapshot (d : HistDoc) (message : String) : HistDoc :=
  ⟨d.entries ++ [⟨d.latestFiles, message⟩]⟩

/-- The body of the `handle.change` in `restoreSnapshot` (part_002 lines 691-705):
first delete every current key whose snapshot value is JS-falsy
(`if (!snapshotFiles[path]) delete d.files[path]`), then upsert every snapshot entry
whose current value differs. -/
def restoreFiles (cur snap : FMap) : FMap :=
  let step1 := (FMap.keys cur).foldl
    (fun m path => if jsFalsy (FMap.get snap path) then FMap.del m path else m) cur
  snap.foldl
    (fun m p => if FMap.get m p.1 ≠ some p.2 then FMap.set m p.1 p.2 else m) step1

/-- `restoreSnapshot(hash)` (part_002 lines 669-718): find the snapshot in history (log
and return if absent), then apply one forward `handle.change` with message
`Revert to <hash>` rewriting the files map to the snapshot's map. The heads are never
rewound: the change is appended to the history. -/
def restoreSnapshot (d : HistDoc) (hash : Nat) : HistDoc :=
  match d.entries[hash]? with
  | none => d
  | some e =>
    ⟨d.entries ++ [⟨restoreFiles d.latestFiles e.files, "Revert to " ++ toString hash⟩]⟩

/-- `checkoutAndSave(hash, saveMessage)` (part_002 lines 720-723). -/
def checkoutAndSave (d : HistDoc) (hash : Nat) (saveMessage : String) : HistDoc :=
  restoreSnapshot (createSnapshot d saveMessage) hash

structure HistoryItem where
  oid : Nat
  message : String
  files : FMap
deriving DecidableEq, Repr

/-- `getHistory()` (part_002 lines 725-748): all changes in chronological order, with
`state.change.message || 'No message'` and the files snapshot. -/
def getHistory (d : HistDoc) : List HistoryItem :=
  d.entries.enum.map (fun p =>
    ⟨p.1, if p.2.message = "" then "No message" else p.2.message, p.2.files⟩)

theorem HistDoc.latestFiles_append (l : List HistEntry) (e : HistEntry) :
    HistDoc.latestFiles ⟨l ++ [e]⟩ = e.files := by
  unfold HistDoc.latestFiles
  rw [List.getLastD_concat]

theorem get_condDel (snap : FMap) (ks : List String) (m : FMap) (q : String) :
    FMap.get (ks.foldl
      (fun m path => if jsFalsy (FMap.get snap path) then FMap.del m path else m) m) q =
      if q ∈ ks ∧ jsFalsy (FMap.get snap q) then none else FMap.get m q := by
  induction ks generalizing m with
  | nil => simp
  | cons k rest ih =>
    simp only [List.foldl_cons]
    rw [ih]
    by_cases hmem : q ∈ rest ∧ jsFalsy (FMap.get snap q)
    · rw [if_pos hmem, if_pos ⟨List.mem_cons_of_mem _ hmem.1, hmem.2⟩]
    · rw [if_neg hmem]
      by_cases hk : jsFalsy (FMap.get snap k)
      · rw [if_pos hk, FMap.get_del]
        by_cases hqk : q = k
        · subst hqk
          rw [if_pos rfl, if_pos ⟨List.mem_cons_self _ _, hk⟩]
        · rw [if_neg hqk, if_neg (fun hand => hmem ⟨?_, hand.2⟩)]
          rcases List.mem_cons.mp hand.1 with h | h
          · exact absurd h hqk
          · exact h
      · rw [if_neg hk, if_neg (fun hand => ?_)]
        rcases List.mem_cons.mp hand.1 with h | h
        · subst h; exact hk hand.2
        · exact hmem ⟨h, hand.2⟩

theorem get_condSet (l : FMap) (hnd : (FMap.keys l).Nodup) (m : FMap) (q : String) :
    FMap.get (l.foldl
      (fun m p => if FMap.get m p.1 ≠ some p.2 then FMap.set m p.1 p.2 else m) m) q =
      (FMap.get l q).or (FMap.get m q) := by
  induction l generalizing m with
  | nil => simp [FMap.get]
  | cons p rest ih =>
    have hnd' : (p.1 :: FMap.keys rest).Nodup := by simpa [FMap.keys] using hnd
    have hnd2 : (FMap.keys rest).Nodup := (List.nodup_cons.mp hnd').2
    have hnotmem : p.1 ∉ FMap.keys rest := (List.nodup_cons.mp hnd').1
    simp only [List.foldl_cons]
    rw [ih hnd2]
    set m' := if FMap.get m p.1 ≠ some p.2 then FMap.set m p.1 p.2 else m with hm'
    have hm'p : FMap.get m' p.1 = some p.2 := by
      rw [hm']
      by_cases hc : FMap.get m p.1 ≠ some p.2
      · rw [if_pos hc, FMap.get_set, if_pos rfl]
      · rw [if_neg hc]
        exact not_not.mp hc
    have hm'q : ∀ x, x ≠ p.1 → FMap.get m' x = FMap.get m x := by
      intro x hx
      rw [hm']
      by_cases hc : FMap.get m p.1 ≠ some p.2
      · rw [if_pos hc, FMap.get_set, if_neg hx]
      · rw [if_neg hc]
    by_cases hq : q = p.1
    · subst hq
      have hrest : FMap.get rest p.1 = none := by
        apply FMap.get_none_of_not_mem
        intro v hv
        exact hnotmem (FMap.mem_keys_of_mem hv)
      rw [hrest, Option.none_or, hm'p]
      simp [FMap.get]
    · rw [hm'q q hq]
      have hhead : FMap.get (p :: rest) q = FMap.get rest q := by
        rw [FMap.get, if_neg (fun hh => hq hh.symm)]
      rw [hhead]

/-- Replaying `restoreFiles` leaves the files map extensionally equal to the snapshot:
falsy-valued current keys are deleted and re-added from the snapshot, absent keys are
deleted, differing keys are overwritten. -/
theorem get_restoreFiles (cur snap : FMap) (hnd : (FMap.keys snap).Nodup) (q : String) :
    FMap.get (restoreFiles cur snap) q = FMap.get snap q := by
  unfold restoreFiles
  rw [get_condSet snap hnd, get_condDel]
  cases hs : FMap.get snap q with
  | some v => simp
  | none =>
    simp only [Option.none_or]
    by_cases hmem : q ∈ FMap.keys cur
    · rw [if_pos ⟨hmem, by simp [jsFalsy, hs]⟩]
    · rw [if_neg (fun hand => hmem hand.1)]
      apply FMap.get_none_of_not_mem
      intro v hv
      exact hmem (FMap.mem_keys_of_mem hv)

theorem getHistory_getElem? (d : HistDoc) (i : Nat) :
    (getHistory d)[i]? = (d.entries[i]?).map
      (fun e => ⟨i, if e.message = "" then "No message" else e.message, e.files⟩) := by
  unfold getHistory
  rw [List.getElem?_map, List.getElem?_enum]
  cases d.entries[i]? <;> simp

/-- C2: for every snapshot hash present in the history, `restoreSnapshot(hash)` leaves
the files projection extensionally equal to that snapshot's file map (absent keys
deleted, present keys set to the snapshot content), and the restore is one new forward
change appended to the history — the previous history is preserved as a prefix, the
heads are never rewound. -/
theorem restoreSnapshot_exact (d : HistDoc) (hash : Nat) (e : HistEntry)
    (hget : d.entries[hash]? = some e) (hnd : (FMap.keys e.files).Nodup) :
    FMap.EquivGet (restoreSnapshot d hash).latestFiles e.files ∧
    (restoreSnapshot d hash).entries =
      d.entries ++
        [⟨restoreFiles d.latestFiles e.files, "Revert to " ++ toString hash⟩] := by
  have hr : restoreSnapshot d hash =
      ⟨d.entries ++
        [⟨restoreFiles d.latestFiles e.files, "Revert to " ++ toString hash⟩]⟩ := by
    unfold restoreSnapshot
    rw [hget]
  constructor
  · rw [hr, HistDoc.latestFiles_append]
    exact fun q => get_restoreFiles _ _ hnd q
  · rw [hr]

theorem restoreSnapshot_exact_witness :
    FMap.EquivGet
      (restoreSnapshot ⟨[⟨[("/a.js", "1")], "init"⟩, ⟨[("/a.js", "2")], "edit"⟩]⟩ 0).latestFiles
      [("/a.js", "1")] := by
  have h := restoreSnapshot_exact ⟨[⟨[("/a.js", "1")], "init"⟩, ⟨[("/a.js", "2")], "edit"⟩]⟩ 0
    ⟨[("/a.js", "1")], "init"⟩ (by decide) (by decide)
  exact h.1

/-- C3: `checkoutAndSave(hash, msg)` creates a safety snapshot automatically and then
restores; afterwards `getHistory()` contains that snapshot — carrying the pre-restore
files and the save message — at the position immediately before the restore entry. -/
theorem checkoutAndSave_history (d : HistDoc) (hash : Nat) (msg : String) (e : HistEntry)
    (hget : d.entries[hash]? = some e) (hmsg : msg ≠ "") :
    (getHistory (checkoutAndSave d hash msg))[d.entries.length]? =
      some ⟨d.entries.length, msg, d.latestFiles⟩ ∧
    (∃ item : HistoryItem,
      (getHistory (checkoutAndSave d hash msg))[d.entries.length + 1]? = some item ∧
      item.message = "Revert to " ++ toString hash) := by
  have hlt : hash < d.entries.length := (List.getElem?_eq_some.mp hget).1
  have hget₂ : ((createSnapshot d msg).entries)[hash]? = some e := by
    show (d.entries ++ [⟨d.latestFiles, msg⟩])[hash]? = some e
    rw [List.getElem?_append, if_pos hlt]
    exact hget
  have hck : (checkoutAndSave d hash msg).entries =
      (d.entries ++ [⟨d.latestFiles, msg⟩]) ++
        [⟨restoreFiles (createSnapshot d msg).latestFiles e.files,
          "Revert to " ++ toString hash⟩] := by
    unfold checkoutAndSave restoreSnapshot
    rw [hget₂]
    rfl
  have hrev : ("Revert to " ++ toString hash) ≠ "" := by
    intro hcontra
    have hlen := congrArg String.length hcontra
    rw [String.length_append] at hlen
    have h10 : "Revert to ".length = 10 := rfl
    rw [h10] at hlen
    simp at hlen
  constructor
  · rw [getHistory_getElem?, hck]
    rw [List.getElem?_append, if_pos (by simp)]
    rw [List.getElem?_concat_length]
    simp [hmsg]
  · refine ⟨⟨d.entries.length + 1, "Revert to " ++ toString hash,
      restoreFiles (createSnapshot d msg).latestFiles e.files⟩, ?_, rfl⟩
    rw [getHistory_getElem?, hck]
    have hidx : d.entries.length + 1 = (d.entries ++ [(⟨d.latestFiles, msg⟩ : HistEntry)]).length := by
      simp
    rw [List.getElem?_append, if_neg (by simp)]
    rw [hidx]
    simp [hrev]

theorem checkoutAndSave_history_witness :
    (getHistory (checkoutAndSave ⟨[⟨[("/a.js", "1")], "init"⟩]⟩ 0 "Backup before checkout"))[1]? =
      some ⟨1, "Backup before checkout", [("/a.js", "1")]⟩ ∧
    (∃ item : HistoryItem,
      (getHistory (checkoutAndSave ⟨[⟨[("/a.js", "1")], "init"⟩]⟩ 0 "Backup before checkout"))[2]? =
        some item ∧
      item.message = "Revert to " ++ toString 0) :=
  checkoutAndSave_history ⟨[⟨[("/a.js", "1")], "init"⟩]⟩ 0 "Backup before checkout"
    ⟨[("/a.js", "1")], "init"⟩ (by decide) (by decide)

/-!
## SessionManager.start (src/apps/web/client/src/components/sandpack/SandpackRoot.tsx
lines 93-144)

`attemptConnection()` either succeeds (sets provider and adapter) or throws; `outcomes i`
models the result of its i-th call (`none` = success, `some e` = thrown error message).
The loop is `for (attempt = 0; attempt <= MAX_RETRIES; attempt++)`.
-/

def MAX_RETRIES : Nat := 3
def RETRY_DELAY_MS : Nat := 2000

structure SessionState where
  isConnecting : Bool
  provider : Option Unit
  adapter : Option Unit
deriving DecidableEq, Repr

structure StartResult where
  state : SessionState
  thrown : Option String
  attempts : Nat
  delays : List Nat
deriving DecidableEq, Repr

/-- The retry loop of `start`, with `fuel` the remaining loop iterations
(`MAX_RETRIES + 1 - attempt`). On success (lines 117-119, 124-128): provider and adapter
set, flag cleared, return. On failure (lines 129-139): record the error, null the
provider (the adapter is not touched), sleep `RETRY_DELAY_MS` when attempts remain.
On exhaustion (lines 142-143): clear the flag and throw the last error. -/
def startLoop (outcomes : Nat → Option String) :
    Nat → Nat → Option String → SessionState → StartResult
  | 0, _, lastError, s => ⟨{ s with isConnecting := false }, lastError, 0, []⟩
  | fuel + 1, attempt, _, s =>
    match outcomes attempt with
    | none =>
      ⟨{ s with provider := some (), adapter := some (), isConnecting := false },
        none, 1, []⟩
    | some e =>
      let r := startLoop outcomes fuel (attempt + 1) (some e) { s with provider := none }
      if attempt < MAX_RETRIES then
        ⟨r.state, r.thrown, r.attempts + 1, RETRY_DELAY_MS :: r.delays⟩
      else
        ⟨r.state, r.thrown, r.attempts + 1, r.delays⟩

/-- `start(sessionId)` (lines 93-144): no-op when a connection is in flight or a provider
already exists (lines 97-99); otherwise set the in-flight flag and run the retry loop. -/
def SessionManager.start (s : SessionState) (outcomes : Nat → Option String) :
    StartResult :=
  if s.isConnecting || s.provider.isSome then ⟨s, none, 0, []⟩
  else startLoop outcomes (MAX_RETRIES + 1) 0 none { s with isConnecting := true }

/-- C4 counterexample: with every attempt failing, `start` makes `MAX_RETRIES + 1 = 4`
connection attempts — the loop runs `attempt = 0 .. MAX_RETRIES` inclusive — so the
claim that connection is attempted up to `MAX_RETRIES` times fails. -/
theorem start_attempts_exceed_max_retries :
    (SessionManager.start ⟨false, none, none⟩ (fun _ => some "boom")).attempts
        = MAX_RETRIES + 1 ∧
    ¬ ((SessionManager.start ⟨false, none, none⟩ (fun _ => some "boom")).attempts
        ≤ MAX_RETRIES) := by
  decide

/-- C4 (amended): `start` is guarded by the single in-flight flag and the existing
provider (such calls are no-ops); connection is attempted up to `MAX_RETRIES + 1` times
(the initial try plus `MAX_RETRIES` retries) with a fixed `RETRY_DELAY` sleep between
consecutive attempts; and when every attempt fails, the last error is thrown to the
caller and the adapter is left unset. -/
theorem start_spec (s : SessionState) (outcomes : Nat → Option String) :
    (s.isConnecting = true ∨ s.provider.isSome = true →
      SessionManager.start s outcomes = ⟨s, none, 0, []⟩) ∧
    (∀ errs : Nat → String, (∀ i, outcomes i = some (errs i)) →
      s.isConnecting = false → s.provider = none → s.adapter = none →
      SessionManager.start s outcomes =
        ⟨⟨false, none, none⟩, some (errs MAX_RETRIES), MAX_RETRIES + 1,
          List.replicate MAX_RETRIES RETRY_DELAY_MS⟩) := by
  constructor
  · intro h
    unfold SessionManager.start
    rw [if_pos ?_]
    rcases h with h | h
    · rw [h]; rfl
    · rw [h]; simp
  · intro errs herr hic hp ha
    obtain ⟨ic, p, a⟩ := s
    simp only at hic hp ha
    subst hic; subst hp; subst ha
    have h0 := herr 0
    have h1 := herr 1
    have h2 := herr 2
    have h3 := herr 3
    simp [SessionManager.start, startLoop, h0, h1, h2, h3, MAX_RETRIES, RETRY_DELAY_MS,
      List.replicate]

theorem start_spec_witness :
    SessionManager.start ⟨false, none, none⟩ (fun _ => some "boom") =
      ⟨⟨false, none, none⟩, some "boom", MAX_RETRIES + 1,
        List.replicate MAX_RETRIES RETRY_DELAY_MS⟩ :=
  (start_spec ⟨false, none, none⟩ (fun _ => some "boom")).2 (fun _ => "boom")
    (fun _ => rfl) rfl rfl rfl

/-!
## SandpackAdapter file operations (src/packages/ai/src/chat/providers.ts)

The adapter reads the live files map through `callbacks.getFiles()` and mutates it
through `onFileUpdate` (assignment into `SandboxManager.files`) and `onFileDelete`
(deletion) — modelled as `FMap.set` and `FMap.del` on the map. Strings are modelled at
character granularity (the sandbox paths are ASCII, so JS UTF-16 indices coincide).
-/

def BINARY_EXTENSIONS : List String :=
  [".png", ".jpg", ".jpeg", ".gif", ".bmp", ".ico", ".svg",
   ".webp", ".avif", ".mp3", ".mp4", ".wav", ".ogg", ".webm",
   ".woff", ".woff2", ".ttf", ".eot", ".otf",
   ".zip", ".tar", ".gz", ".7z", ".rar",
   ".pdf", ".exe", ".dll", ".so", ".dylib"]

/-- JS `s.slice(s.lastIndexOf('.'))`: from the last dot to the end; when there is no dot
`lastIndexOf` is -1 and `slice(-1)` yields the last character. -/
def extSlice (s : String) : String :=
  match List.findIdx? (· = '.') s.data.reverse with
  | some i => ⟨s.data.drop (s.data.length - 1 - i)⟩
  | none => ⟨s.data.drop (s.data.length - 1)⟩

/-- JS `String.prototype.toLowerCase` over ASCII. -/
def toLowerStr (s : String) : String := ⟨s.data.map Char.toLower⟩

/-- `isBinaryPath` (providers.ts lines 116-119). -/
def isBinaryPath (path : String) : Bool :=
  BINARY_EXTENSIONS.contains (toLowerStr (extSlice path))

/-- JS `s.startsWith(pre)`, at character granularity. -/
def strStartsWith (s pre : String) : Bool := pre.data.isPrefixOf s.data

/-- JS `s.endsWith(suf)`, at character granularity. -/
def strEndsWith (s suf : String) : Bool := suf.data.isSuffixOf s.data

/-- JS `s.slice(n)`: drop the first n characters. -/
def strDrop (s : String) (n : Nat) : String := ⟨s.data.drop n⟩

/-- `normalizePath` (providers.ts lines 121-127): ensure a leading slash. -/
def normalizePath (p : String) : String :=
  if strStartsWith p "/" then p else "/" ++ p

/-- `string | Uint8Array` content. -/
inductive Content where
  | str (s : String)
  | bytes (b : List Nat)
deriving DecidableEq, Repr

/-- `writeFile` (providers.ts lines 168-183): `Uint8Array` content and binary-extension
paths are rejected with a console warning — no throw, no mutation (the function is total
here); otherwise the normalized path is written through `onFileUpdate`. Returns the
resulting files map. -/
def SandpackAdapter.writeFile (files : FMap) (path : String) (content : Content) : FMap :=
  match content with
  | .bytes _ => files
  | .str s =>
    if isBinaryPath (normalizePath path) then files
    else FMap.set files (normalizePath path) s

/-- C6: for every path and every Uint8Array content, `writeFile` leaves the file map
unchanged and does not throw; the same holds for any string content written to a path
whose extension is in the fixed binary-extension set (e.g. `writeFile('/x.png','text')`). -/
theorem writeFile_binary_noop (files : FMap) (path : String) :
    (∀ b : List Nat, SandpackAdapter.writeFile files path (.bytes b) = files) ∧
    (∀ s : String, isBinaryPath (normalizePath path) = true →
      SandpackAdapter.writeFile files path (.str s) = files) := by
  constructor
  · intro b
    rfl
  · intro s h
    show (if isBinaryPath (normalizePath path) = true then files
          else FMap.set files (normalizePath path) s) = files
    rw [if_pos h]

theorem writeFile_binary_noop_witness :
    SandpackAdapter.writeFile [("/a.js", "x")] "/x.png" (.str "text") = [("/a.js", "x")] :=
  (writeFile_binary_noop [("/a.js", "x")] "/x.png").2 "text" (by decide)

/-!
## SandpackFileWatcher (src/unnamed/part_000 lines 273-354)
-/

structure WatchEvent where
  type : String
  paths : List String
deriving DecidableEq, Repr

/-- The `added` list of `detectChanges` (part_000 lines 316-323): keys of the current map
absent from the snapshot, in key order. -/
def addedPaths (prev cur : FMap) : List String :=
  (FMap.keys cur).filter (fun path => !FMap.hasKey prev path)

/-- The `changed` list (lines 316-323): keys present in both maps with different values. -/
def changedPaths (prev cur : FMap) : List String :=
  (FMap.keys cur).filter (fun path =>
    FMap.hasKey prev path && FMap.get cur path != FMap.get prev path)

/-- The `removed` list (lines 325-330): snapshot keys no longer present. -/
def removedPaths (prev cur : FMap) : List String :=
  (FMap.keys prev).filter (fun path => !FMap.hasKey cur path)

/-- `detectChanges` (part_000 lines 310-345): collect the three categories, emit one
batched event per non-empty category in the order add, change, remove, and replace the
stored snapshot with the current map. Returns (emitted events, new snapshot). -/
def detectChanges (previousSnapshot currentFiles : FMap) : List WatchEvent × FMap :=
  ((if (addedPaths previousSnapshot currentFiles).isEmpty then []
    else [⟨"add", addedPaths previousSnapshot currentFiles⟩]) ++
   (if (changedPaths previousSnapshot currentFiles).isEmpty then []
    else [⟨"change", changedPaths previousSnapshot currentFiles⟩]) ++
   (if (removedPaths previousSnapshot currentFiles).isEmpty then []
    else [⟨"remove", removedPaths previousSnapshot currentFiles⟩]),
   currentFiles)

theorem FMap.mem_keys_iff_get_isSome (m : FMap) (q : String) :
    q ∈ FMap.keys m ↔ (FMap.get m q).isSome := by
  constructor
  · intro h
    rcases List.mem_map.mp h with ⟨p, hp, hq⟩
    subst hq
    exact @FMap.mem_get_isSome m p.1 p.2 (by simpa using hp)
  · intro h
    rcases Option.isSome_iff_exists.mp h with ⟨v, hv⟩
    exact FMap.mem_keys_of_mem (FMap.get_eq_some_mem hv)

theorem mem_addedPaths (prev cur : FMap) (q : String) :
    q ∈ addedPaths prev cur ↔ (FMap.get cur q).isSome ∧ FMap.get prev q = none := by
  rw [addedPaths, List.mem_filter, FMap.mem_keys_iff_get_isSome]
  constructor
  · rintro ⟨h1, h2⟩
    simp only [Bool.not_eq_true', FMap.hasKey] at h2
    exact ⟨h1, Option.not_isSome_iff_eq_none.mp (by simp [h2])⟩
  · rintro ⟨h1, h2⟩
    exact ⟨h1, by simp [FMap.hasKey, h2]⟩

theorem mem_changedPaths (prev cur : FMap) (q : String) :
    q ∈ changedPaths prev cur ↔
      (FMap.get prev q).isSome ∧ (FMap.get cur q).isSome ∧
        FMap.get cur q ≠ FMap.get prev q := by
  rw [changedPaths, List.mem_filter, FMap.mem_keys_iff_get_isSome]
  constructor
  · rintro ⟨h1, h2⟩
    simp only [Bool.and_eq_true, bne_iff_ne, FMap.hasKey] at h2
    exact ⟨h2.1, h1, h2.2⟩
  · rintro ⟨h1, h2, h3⟩
    exact ⟨h2, by simp [FMap.hasKey, h1, h3]⟩

theorem mem_removedPaths (prev cur : FMap) (q : String) :
    q ∈ removedPaths prev cur ↔ (FMap.get prev q).isSome ∧ FMap.get cur q = none := by
  rw [removedPaths, List.mem_filter, FMap.mem_keys_iff_get_isSome]
  constructor
  · rintro ⟨h1, h2⟩
    simp only [Bool.not_eq_true', FMap.hasKey] at h2
    exact ⟨h1, Option.not_isSome_iff_eq_none.mp (by simp [h2])⟩
  · rintro ⟨h1, h2⟩
    exact ⟨h1, by simp [FMap.hasKey, h2]⟩

theorem mem_detectChanges_events (prev cur : FMap) (e : WatchEvent) :
    e ∈ (detectChanges prev cur).1 ↔
      (¬ (addedPaths prev cur).isEmpty = true ∧ e = ⟨"add", addedPaths prev cur⟩) ∨
      (¬ (changedPaths prev cur).isEmpty = true ∧ e = ⟨"change", changedPaths prev cur⟩) ∨
      (¬ (removedPaths prev cur).isEmpty = true ∧ e = ⟨"remove", removedPaths prev cur⟩) := by
  unfold detectChanges
  by_cases ha : (addedPaths prev cur).isEmpty <;>
    by_cases hc : (changedPaths prev cur).isEmpty <;>
    by_cases hr : (removedPaths prev cur).isEmpty <;>
    simp [ha, hc, hr]

/-- C8: on every tick, relative to the stored snapshot, the poll watcher computes
added = new keys, changed = keys in both with different values, removed = keys no longer
present; it emits at most one batched event per non-empty category (the emitted event
types form a sublist of add/change/remove), every emitted event is non-empty, every
non-empty category is emitted, the event paths characterize their category exactly, and
the stored snapshot is replaced by the current map. On the claim's example, snapshot
`{a:"1"}` against `{a:"2", b:"1"}` emits exactly one add event for `b` and one change
event for `a`, and no remove event. -/
theorem detectChanges_spec (prev cur : FMap) :
    ((detectChanges prev cur).2 = cur) ∧
    (((detectChanges prev cur).1.map (fun e => e.type)).Sublist
      ["add", "change", "remove"]) ∧
    (∀ e ∈ (detectChanges prev cur).1, e.paths ≠ []) ∧
    (∀ e ∈ (detectChanges prev cur).1,
      (e.type = "add" → ∀ q,
        (q ∈ e.paths ↔ (FMap.get cur q).isSome ∧ FMap.get prev q = none)) ∧
      (e.type = "change" → ∀ q,
        (q ∈ e.paths ↔ (FMap.get prev q).isSome ∧ (FMap.get cur q).isSome ∧
          FMap.get cur q ≠ FMap.get prev q)) ∧
      (e.type = "remove" → ∀ q,
        (q ∈ e.paths ↔ (FMap.get prev q).isSome ∧ FMap.get cur q = none))) ∧
    ((∃ q, (FMap.get cur q).isSome ∧ FMap.get prev q = none) →
      ∃ e ∈ (detectChanges prev cur).1, e.type = "add") ∧
    ((∃ q, (FMap.get prev q).isSome ∧ (FMap.get cur q).isSome ∧
        FMap.get cur q ≠ FMap.get prev q) →
      ∃ e ∈ (detectChanges prev cur).1, e.type = "change") ∧
    ((∃ q, (FMap.get prev q).isSome ∧ FMap.get cur q = none) →
      ∃ e ∈ (detectChanges prev cur).1, e.type = "remove") ∧
    (detectChanges [("a", "1")] [("a", "2"), ("b", "1")] =
      ([⟨"add", ["b"]⟩, ⟨"change", ["a"]⟩], [("a", "2"), ("b", "1")])) := by
  refine ⟨rfl, ?_, ?_, ?_, ?_, ?_, ?_, by decide⟩
  · unfold detectChanges
    by_cases ha : (addedPaths prev cur).isEmpty <;>
      by_cases hc : (changedPaths prev cur).isEmpty <;>
      by_cases hr : (removedPaths prev cur).isEmpty <;>
      simp [ha, hc, hr]
  · intro e he
    rcases (mem_detectChanges_events prev cur e).mp he with ⟨hne, rfl⟩ | ⟨hne, rfl⟩ | ⟨hne, rfl⟩ <;>
      simpa using fun h => hne (by simp [h])
  · intro e he
    rcases (mem_detectChanges_events prev cur e).mp he with ⟨hne, rfl⟩ | ⟨hne, rfl⟩ | ⟨hne, rfl⟩
    · refine ⟨fun _ q => mem_addedPaths prev cur q, fun h => absurd h (by simp),
        fun h => absurd h (by simp)⟩
    · refine ⟨fun h => absurd h (by simp), fun _ q => mem_changedPaths prev cur q,
        fun h => absurd h (by simp)⟩
    · refine ⟨fun h => absurd h (by simp), fun h => absurd h (by simp),
        fun _ q => mem_removedPaths prev cur q⟩
  · rintro ⟨q, hq⟩
    have hmem : q ∈ addedPaths prev cur := (mem_addedPaths prev cur q).mpr hq
    have ha : ¬ (addedPaths prev cur).isEmpty = true := by
      intro h
      rw [List.isEmpty_iff.mp h] at hmem
      exact List.not_mem_nil q hmem
    exact ⟨⟨"add", addedPaths prev cur⟩,
      (mem_detectChanges_events prev cur _).mpr (Or.inl ⟨ha, rfl⟩), rfl⟩
  · rintro ⟨q, hq⟩
    have hmem : q ∈ changedPaths prev cur := (mem_changedPaths prev cur q).mpr hq
    have hc : ¬ (changedPaths prev cur).isEmpty = true := by
      intro h
      rw [List.isEmpty_iff.mp h] at hmem
      exact List.not_mem_nil q hmem
    exact ⟨⟨"change", changedPaths prev cur⟩,
      (mem_detectChanges_events prev cur _).mpr (Or.inr (Or.inl ⟨hc, rfl⟩)), rfl⟩
  · rintro ⟨q, hq⟩
    have hmem : q ∈ removedPaths prev cur := (mem_removedPaths prev cur q).mpr hq
    have hr : ¬ (removedPaths prev cur).isEmpty = true := by
      intro h
      rw [List.isEmpty_iff.mp h] at hmem
      exact List.not_mem_nil q hmem
    exact ⟨⟨"remove", removedPaths prev cur⟩,
      (mem_detectChanges_events prev cur _).mpr (Or.inr (Or.inr ⟨hr, rfl⟩)), rfl⟩

theorem detectChanges_spec_witness :
    ∃ e ∈ (detectChanges [("a", "1")] [("a", "2"), ("b", "1")]).1, e.type = "add" :=
  (detectChanges_spec [("a", "1")] [("a", "2"), ("b", "1")]).2.2.2.2.1
    ⟨"b", by decide, by decide⟩

/-!
## Watcher lifecycle (src/unnamed/part_000 lines 279-353)

`SandpackFileWatcher` holds the registered callback list, the polling interval handle and
the previous snapshot. The cooperative scheduler fires `detectChanges` only while the
interval is registered; `emit` delivers each event to every registered callback.
Callbacks are identified by ids.
-/

structure WatcherState where
  callbacks : List Nat
  intervalActive : Bool
  previousSnapshot : FMap
deriving DecidableEq, Repr

/-- `stop()` (part_000 lines 298-304): clear the polling interval and drop every
registered callback. -/
def SandpackFileWatcher.stop (w : WatcherState) : WatcherState :=
  { w with intervalActive := false, callbacks := [] }

/-- One scheduler tick against the current file map: while the interval is registered,
run `detectChanges` and deliver each emitted event to every registered callback
(`emit`, lines 347-353); otherwise nothing runs. Returns the new watcher state and the
(callback id, event) deliveries. -/
def watcherTick (w : WatcherState) (cur : FMap) :
    WatcherState × List (Nat × WatchEvent) :=
  if w.intervalActive then
    ({ w with previousSnapshot := (detectChanges w.previousSnapshot cur).2 },
      (detectChanges w.previousSnapshot cur).1.foldr
        (fun e acc => w.callbacks.map (fun c => (c, e)) ++ acc) [])
  else (w, [])

/-- Successive scheduler ticks over an arbitrary evolution of the file map, collecting
every delivery. -/
def watcherRun (w : WatcherState) : List FMap → WatcherState × List (Nat × WatchEvent)
  | [] => (w, [])
  | cur :: rest =>
    let step := watcherTick w cur
    let next := watcherRun step.1 rest
    (next.1, step.2 ++ next.2)

/-- C10: after `stop()` returns, no add/change/remove event is ever delivered to any
callback registered before the stop, whatever the file map does afterwards: `stop()`
cancels the polling interval and clears the callback list, so every subsequent tick
delivers nothing. -/
theorem stop_no_more_events (w : WatcherState) (ms : List FMap) :
    (watcherRun (SandpackFileWatcher.stop w) ms).2 = [] := by
  induction ms with
  | nil => rfl
  | cons m rest ih =>
    show (watcherRun (SandpackFileWatcher.stop w) (m :: rest)).2 = []
    unfold watcherRun
    have htick : watcherTick (SandpackFileWatcher.stop w) m =
        (SandpackFileWatcher.stop w, []) := by
      unfold watcherTick SandpackFileWatcher.stop
      simp
    rw [htick]
    simpa using ih

/-!
## SandpackAdapter.renameFile (src/packages/ai/src/chat/providers.ts lines 374-396)
-/

/-- The `endsWith('/') ? p : p + '/'` prefix computation of `renameFile`. -/
def dirSlash (p : String) : String := if strEndsWith p "/" then p else p ++ "/"

/-- One iteration of the directory-rename loop (providers.ts lines 388-394): for a
captured key under the old directory prefix, read the content from the LIVE map, write it
at the rewritten path, then delete the old key. -/
def renameStep (dp np : String) (fs : FMap) (filePath : String) : FMap :=
  if strStartsWith filePath dp then
    match FMap.get fs filePath with
    | some content => FMap.del (FMap.set fs (np ++ strDrop filePath dp.length) content) filePath
    | none => fs
  else fs

/-- `renameFile` (providers.ts lines 374-396): if the normalized old path is an exact
key, write the content at the normalized new path and then delete the old key; otherwise
treat it as a directory prefix and rewrite each captured key under it (`Object.keys` is
captured once; contents are read from the live map as the loop mutates it). -/
def SandpackAdapter.renameFile (files : FMap) (oldPath newPath : String) : FMap :=
  if FMap.hasKey files (normalizePath oldPath) then
    match FMap.get files (normalizePath oldPath) with
    | some content =>
      FMap.del (FMap.set files (normalizePath newPath) content) (normalizePath oldPath)
    | none => files
  else
    (FMap.keys files).foldl
      (renameStep (dirSlash (normalizePath oldPath)) (dirSlash (normalizePath newPath)))
      files

/-- C7 counterexample: the claim fails as stated. Renaming a file onto itself deletes it
(the update at the new path is followed by the delete of the same old path), and renaming
a directory into one of its own subdirectories propagates already-overwritten contents
instead of the claimed per-file rewrite: for `{"/d/q":"1","/d/b/q":"2"}`,
`renameFile('/d','/d/b')` puts content "1" — not the original "2" of `/d/b/q` — at
`/d/b/b/q`. -/
theorem renameFile_counterexample :
    (SandpackAdapter.renameFile [("/a", "x")] "/a" "/a" = [] ∧
      FMap.get (SandpackAdapter.renameFile [("/a", "x")] "/a" "/a") "/a" ≠ some "x") ∧
    (FMap.get (SandpackAdapter.renameFile [("/d/q", "1"), ("/d/b/q", "2")] "/d" "/d/b")
        "/d/b/b/q" = some "1" ∧
      FMap.get (SandpackAdapter.renameFile [("/d/q", "1"), ("/d/b/q", "2")] "/d" "/d/b")
        "/d/b/b/q" ≠ some "2") := by
  decide

theorem strStartsWith_iff (s pre : String) :
    strStartsWith s pre = true ↔ pre.data.IsPrefix s.data := by
  unfold strStartsWith
  exact List.isPrefixOf_iff_prefix

theorem string_data_append (a b : String) : (a ++ b).data = a.data ++ b.data := by
  cases a; cases b; rfl

theorem string_eq_of_data {a b : String} (h : a.data = b.data) : a = b := by
  cases a; cases b; exact congrArg String.mk h

theorem string_length_data (s : String) : s.length = s.data.length := rfl

/-- A string is its prefix followed by the rest. -/
theorem append_strDrop_of_startsWith {s pre : String}
    (h : strStartsWith s pre = true) : pre ++ strDrop s pre.length = s := by
  obtain ⟨t, ht⟩ := (strStartsWith_iff s pre).mp h
  apply string_eq_of_data
  rw [string_data_append]
  show pre.data ++ (s.data.drop pre.length) = s.data
  rw [string_length_data, ← ht, List.drop_left]

theorem strDrop_append (pre s : String) : strDrop (pre ++ s) pre.length = s := by
  apply string_eq_of_data
  show ((pre ++ s).data).drop pre.length = s.data
  rw [string_data_append, string_length_data, List.drop_left]

theorem strStartsWith_append (pre s : String) : strStartsWith (pre ++ s) pre = true := by
  rw [strStartsWith_iff, string_data_append]
  exact List.prefix_append _ _

theorem string_append_cancel {pre a b : String} (h : pre ++ a = pre ++ b) : a = b := by
  apply string_eq_of_data
  have hd := congrArg String.data h
  rw [string_data_append, string_data_append] at hd
  exact List.append_cancel_left hd

/-- Two prefixes of the same string are comparable, so under prefix-incomparability of
`dp` and `np` no string can start with both. -/
theorem not_startsWith_both {dp np q : String}
    (hdp : ¬ dp.data.IsPrefix np.data) (hnp : ¬ np.data.IsPrefix dp.data)
    (h1 : strStartsWith q dp = true) (h2 : strStartsWith q np = true) : False := by
  rcases List.prefix_or_prefix_of_prefix ((strStartsWith_iff q dp).mp h1)
      ((strStartsWith_iff q np).mp h2) with h | h
  · exact hdp h
  · exact hnp h

/-- The simultaneous per-file rewrite the claim describes, written from the spec's words:
every file under the old prefix disappears, every rewritten path carries its source's
original content, and everything else is untouched. -/
def renameDirGet (files : FMap) (dp np : String) (q : String) : Option String :=
  if strStartsWith q dp = true ∧ (FMap.get files q).isSome = true then none
  else if strStartsWith q np = true ∧
      (FMap.get files (dp ++ strDrop q np.length)).isSome = true then
    FMap.get files (dp ++ strDrop q np.length)
  else FMap.get files q

/-- The intermediate state of the directory-rename loop after processing the keys in
`done`: processed sources are gone, their targets carry the source contents, the rest is
as in the original map. -/
def expectedGet (files : FMap) (dp np : String) (done : List String) (q : String) :
    Option String :=
  if strStartsWith q dp = true ∧ (FMap.get files q).isSome = true ∧ q ∈ done then none
  else if strStartsWith q np = true ∧
      (FMap.get files (dp ++ strDrop q np.length)).isSome = true ∧
      (dp ++ strDrop q np.length) ∈ done then
    FMap.get files (dp ++ strDrop q np.length)
  else FMap.get files q

theorem expectedGet_snoc (files : FMap) (dp np : String) (done : List String)
    (k q : String)
    (h1 : q = k → ¬ (strStartsWith q dp = true ∧ (FMap.get files q).isSome = true))
    (h2 : dp ++ strDrop q np.length = k →
      ¬ (strStartsWith q np = true ∧
        (FMap.get files (dp ++ strDrop q np.length)).isSome = true)) :
    expectedGet files dp np (done ++ [k]) q = expectedGet files dp np done q := by
  unfold expectedGet
  by_cases hc1 : strStartsWith q dp = true ∧ (FMap.get files q).isSome = true ∧ q ∈ done
  · rw [if_pos ⟨hc1.1, hc1.2.1, List.mem_append_left _ hc1.2.2⟩, if_pos hc1]
  · have hc1' : ¬ (strStartsWith q dp = true ∧ (FMap.get files q).isSome = true ∧
        q ∈ done ++ [k]) := by
      rintro ⟨a, b, c⟩
      rcases List.mem_append.mp c with c | c
      · exact hc1 ⟨a, b, c⟩
      · exact h1 (List.mem_singleton.mp c) ⟨a, b⟩
    rw [if_neg hc1', if_neg hc1]
    by_cases hc2 : strStartsWith q np = true ∧
        (FMap.get files (dp ++ strDrop q np.length)).isSome = true ∧
        (dp ++ strDrop q np.length) ∈ done
    · rw [if_pos ⟨hc2.1, hc2.2.1, List.mem_append_left _ hc2.2.2⟩, if_pos hc2]
    · have hc2' : ¬ (strStartsWith q np = true ∧
          (FMap.get files (dp ++ strDrop q np.length)).isSome = true ∧
          (dp ++ strDrop q np.length) ∈ done ++ [k]) := by
        rintro ⟨a, b, c⟩
        rcases List.mem_append.mp c with c | c
        · exact hc2 ⟨a, b, c⟩
        · exact h2 (List.mem_singleton.mp c) ⟨a, b⟩
      rw [if_neg hc2', if_neg hc2]

theorem renameFold_get (files : FMap) (dp np : String)
    (hdp : ¬ dp.data.IsPrefix np.data) (hnp : ¬ np.data.IsPrefix dp.data)
    (hnd : (FMap.keys files).Nodup) :
    ∀ (ks done : List String) (fs : FMap),
      FMap.keys files = done ++ ks →
      (∀ q, FMap.get fs q = expectedGet files dp np done q) →
      ∀ q, FMap.get (ks.foldl (renameStep dp np) fs) q =
        expectedGet files dp np (done ++ ks) q := by
  intro ks
  induction ks with
  | nil =>
    intro done fs hsplit hfs q
    simpa using hfs q
  | cons k ks' ih =>
    intro done fs hsplit hfs
    have hassoc : done ++ k :: ks' = (done ++ [k]) ++ ks' := by simp
    have hinv : ∀ q, FMap.get (renameStep dp np fs k) q =
        expectedGet files dp np (done ++ [k]) q := by
      by_cases hk : strStartsWith k dp = true
      · have hkmem : k ∈ FMap.keys files := by
          rw [hsplit]; exact List.mem_append_right _ (List.mem_cons_self _ _)
        obtain ⟨c, hc⟩ := Option.isSome_iff_exists.mp
          ((FMap.mem_keys_iff_get_isSome files k).mp hkmem)
        have hknotdone : k ∉ done := by
          intro hmem
          rw [hsplit] at hnd
          exact (List.nodup_append.mp hnd).2.2 hmem (List.mem_cons_self _ _)
        have hfsk : FMap.get fs k = some c := by
          rw [hfs k]
          unfold expectedGet
          rw [if_neg (fun h => hknotdone h.2.2),
              if_neg (fun h => not_startsWith_both hdp hnp hk h.1)]
          exact hc
        have hstep : renameStep dp np fs k =
            FMap.del (FMap.set fs (np ++ strDrop k dp.length) c) k := by
          unfold renameStep
          rw [if_pos hk, hfsk]
        have htgtnp : strStartsWith (np ++ strDrop k dp.length) np = true :=
          strStartsWith_append np _
        have htgtk : ¬ (np ++ strDrop k dp.length) = k := by
          intro he
          rw [← he] at hk
          exact not_startsWith_both hdp hnp hk htgtnp
        have hsrc : dp ++ strDrop (np ++ strDrop k dp.length) np.length = k := by
          rw [strDrop_append]
          exact append_strDrop_of_startsWith hk
        intro q
        rw [hstep, FMap.get_del, FMap.get_set]
        by_cases hqk : q = k
        · subst hqk
          rw [if_pos rfl]
          unfold expectedGet
          rw [if_pos ⟨hk, by rw [hc]; rfl,
            List.mem_append_right _ (List.mem_singleton_self _)⟩]
        · rw [if_neg hqk]
          by_cases hqt : q = np ++ strDrop k dp.length
          · subst hqt
            rw [if_pos rfl]
            unfold expectedGet
            rw [hsrc]
            rw [if_neg (fun h => not_startsWith_both hdp hnp h.1 htgtnp),
                if_pos ⟨htgtnp, by rw [hc]; rfl,
                  List.mem_append_right _ (List.mem_singleton_self _)⟩]
            exact hc.symm
          · rw [if_neg hqt, hfs q]
            refine (expectedGet_snoc files dp np done k q
              (fun hqk' => absurd hqk' hqk) (fun hsk h => hqt ?_)).symm
            have h1 := append_strDrop_of_startsWith h.1
            have h2 : strDrop q np.length = strDrop k dp.length := by
              apply @string_append_cancel dp
              rw [hsk]
              exact (append_strDrop_of_startsWith hk).symm
            rw [h2] at h1
            exact h1.symm
      · intro q
        have hstep : renameStep dp np fs k = fs := by
          unfold renameStep
          rw [if_neg hk]
        rw [hstep, hfs q]
        exact (expectedGet_snoc files dp np done k q
          (fun hqk h => hk (hqk ▸ h.1))
          (fun hsk h => hk (hsk ▸ strStartsWith_append dp (strDrop q np.length)))).symm
    intro q
    simp only [List.foldl_cons]
    rw [hassoc]
    exact ih (done ++ [k]) (renameStep dp np fs k) (by rw [hsplit, hassoc]) hinv q

theorem expectedGet_keys (files : FMap) (dp np : String) (q : String) :
    expectedGet files dp np (FMap.keys files) q = renameDirGet files dp np q := by
  unfold expectedGet renameDirGet
  by_cases h1 : strStartsWith q dp = true ∧ (FMap.get files q).isSome = true
  · rw [if_pos ⟨h1.1, h1.2, (FMap.mem_keys_iff_get_isSome files q).mpr h1.2⟩, if_pos h1]
  · rw [if_neg (fun h => h1 ⟨h.1, h.2.1⟩), if_neg h1]
    by_cases h2 : strStartsWith q np = true ∧
        (FMap.get files (dp ++ strDrop q np.length)).isSome = true
    · rw [if_pos ⟨h2.1, h2.2, (FMap.mem_keys_iff_get_isSome files _).mpr h2.2⟩,
        if_pos h2]
    · rw [if_neg (fun h => h2 ⟨h.1, h.2.1⟩), if_neg h2]

/-- C7 (amended): if the normalized old path is an exact key of the map and the
normalized new path differs from it, exactly that file is moved to the new path with its
content preserved and nothing else changes; otherwise — provided neither directory
prefix is a prefix of the other — old is treated as a directory prefix and every file
under old + '/' is rewritten to the corresponding path under new with its content, so
that `{"/src/a.js":"a","/src/b.js":"b"}` renamed from `/src` to `/lib` yields
`{"/lib/a.js":"a","/lib/b.js":"b"}` with no `/src/*` keys remaining. -/
theorem renameFile_spec (files : FMap) (oldPath newPath : String)
    (hnd : (FMap.keys files).Nodup) :
    (∀ content, FMap.get files (normalizePath oldPath) = some content →
      normalizePath newPath ≠ normalizePath oldPath →
      FMap.get (SandpackAdapter.renameFile files oldPath newPath)
          (normalizePath newPath) = some content ∧
      FMap.get (SandpackAdapter.renameFile files oldPath newPath)
          (normalizePath oldPath) = none ∧
      (∀ q, q ≠ normalizePath oldPath → q ≠ normalizePath newPath →
        FMap.get (SandpackAdapter.renameFile files oldPath newPath) q =
          FMap.get files q)) ∧
    (FMap.get files (normalizePath oldPath) = none →
      ¬ (dirSlash (normalizePath oldPath)).data.IsPrefix
          (dirSlash (normalizePath newPath)).data →
      ¬ (dirSlash (normalizePath newPath)).data.IsPrefix
          (dirSlash (normalizePath oldPath)).data →
      ∀ q, FMap.get (SandpackAdapter.renameFile files oldPath newPath) q =
        renameDirGet files (dirSlash (normalizePath oldPath))
          (dirSlash (normalizePath newPath)) q) ∧
    (SandpackAdapter.renameFile [("/src/a.js", "a"), ("/src/b.js", "b")] "/src" "/lib" =
      [("/lib/a.js", "a"), ("/lib/b.js", "b")]) := by
  refine ⟨?_, ?_, by decide⟩
  · intro content hc hne
    have hkey : FMap.hasKey files (normalizePath oldPath) = true := by
      simp [FMap.hasKey, hc]
    have hr : SandpackAdapter.renameFile files oldPath newPath =
        FMap.del (FMap.set files (normalizePath newPath) content)
          (normalizePath oldPath) := by
      unfold SandpackAdapter.renameFile
      rw [if_pos hkey, hc]
    rw [hr]
    refine ⟨?_, ?_, ?_⟩
    · rw [FMap.get_del, if_neg hne, FMap.get_set, if_pos rfl]
    · rw [FMap.get_del, if_pos rfl]
    · intro q hq1 hq2
      rw [FMap.get_del, if_neg hq1, FMap.get_set, if_neg hq2]
  · intro hnone hdp hnp q
    have hkey : ¬ FMap.hasKey files (normalizePath oldPath) = true := by
      simp [FMap.hasKey, hnone]
    have hr : SandpackAdapter.renameFile files oldPath newPath =
        (FMap.keys files).foldl
          (renameStep (dirSlash (normalizePath oldPath))
            (dirSlash (normalizePath newPath))) files := by
      unfold SandpackAdapter.renameFile
      rw [if_neg hkey]
    rw [hr]
    have hbase : ∀ q', FMap.get files q' =
        expectedGet files (dirSlash (normalizePath oldPath))
          (dirSlash (normalizePath newPath)) [] q' := by
      intro q'
      unfold expectedGet
      rw [if_neg (fun h => List.not_mem_nil _ h.2.2),
          if_neg (fun h => List.not_mem_nil _ h.2.2)]
    have hfold := renameFold_get files (dirSlash (normalizePath oldPath))
      (dirSlash (normalizePath newPath)) hdp hnp hnd (FMap.keys files) [] files
      (by simp) hbase q
    rw [hfold]
    have hnilapp : ([] ++ FMap.keys files : List String) = FMap.keys files := by simp
    rw [hnilapp]
    exact expectedGet_keys files _ _ q

theorem renameFile_spec_witness :
    (FMap.get (SandpackAdapter.renameFile [("/a.js", "x")] "/a.js" "/b.js") "/b.js" =
        some "x" ∧
      FMap.get (SandpackAdapter.renameFile [("/a.js", "x")] "/a.js" "/b.js") "/a.js" =
        none) ∧
    FMap.get (SandpackAdapter.renameFile [("/src/a.js", "a"), ("/src/b.js", "b")]
      "/src" "/lib") "/lib/a.js" =
      renameDirGet [("/src/a.js", "a"), ("/src/b.js", "b")] "/src/" "/lib/" "/lib/a.js" := by
  constructor
  · have h := (renameFile_spec [("/a.js", "x")] "/a.js" "/b.js" (by decide)).1
      "x" (by decide) (by decide)
    exact ⟨h.1, h.2.1⟩
  · have h := (renameFile_spec [("/src/a.js", "a"), ("/src/b.js", "b")] "/src" "/lib"
      (by decide)).2.1 (by decide) (by decide) (by decide) "/lib/a.js"
    exact h

/-!
## JSON (platform model)

`handleNpmInstall` round-trips the manifest through `JSON.parse` and
`JSON.stringify(pkg, null, 2)`. Both are JS builtins, modelled here on the fragment the
manifests use: objects, arrays, strings with basic escapes, integers (manifests carry no
fractional numbers), booleans and null. The parser is fuelled; the fuel bound is
generous, and every use in the theorems below is on concrete inputs where evaluation
certifies it suffices.
-/

inductive Json where
  | null
  | bool (b : Bool)
  | num (n : Int)
  | str (s : String)
  | arr (elems : List Json)
  | obj (fields : List (String × Json))
deriving Repr

def isWsChar (c : Char) : Bool := c = ' ' ∨ c = '\n' ∨ c = '\t' ∨ c = '\r'

def skipWs : List Char → List Char
  | c :: rest => if isWsChar c then skipWs rest else c :: rest
  | [] => []

/-- String-literal body: consume up to the closing quote, handling basic escapes. -/
def parseStrChars : List Char → Option (List Char × List Char)
  | [] => none
  | '"' :: rest => some ([], rest)
  | '\\' :: c :: rest =>
    (match c with
     | '"' => some '"'
     | '\\' => some '\\'
     | '/' => some '/'
     | 'n' => some '\n'
     | 't' => some '\t'
     | 'r' => some '\r'
     | _ => none).bind
      (fun d => (parseStrChars rest).map
        (fun r : List Char × List Char => (d :: r.1, r.2)))
  | c :: rest =>
    if c = '\\' then none
    else (parseStrChars rest).map (fun r : List Char × List Char => (c :: r.1, r.2))

def digitsToNat (ds : List Char) : Nat :=
  ds.foldl (fun acc c => acc * 10 + (c.toNat - '0'.toNat)) 0

mutual

def parseValue : Nat → List Char → Option (Json × List Char)
  | 0, _ => none
  | fuel + 1, cs =>
    match skipWs cs with
    | [] => none
    | c :: rest =>
      if c = '"' then
        (parseStrChars rest).map (fun r => (Json.str ⟨r.1⟩, r.2))
      else if c = '\x7b' then
        parseObjBody fuel (skipWs rest) []
      else if c = '[' then
        parseArrBody fuel (skipWs rest) []
      else if c = 't' then
        if rest.take 3 = ['r', 'u', 'e'] then some (Json.bool true, rest.drop 3) else none
      else if c = 'f' then
        if rest.take 4 = ['a', 'l', 's', 'e'] then some (Json.bool false, rest.drop 4)
        else none
      else if c = 'n' then
        if rest.take 3 = ['u', 'l', 'l'] then some (Json.null, rest.drop 3) else none
      else if c = '-' then
        match rest.takeWhile (·.isDigit), rest.dropWhile (·.isDigit) with
        | [], _ => none
        | ds, rest' => some (Json.num (-(digitsToNat ds : Int)), rest')
      else if c.isDigit then
        match (c :: rest).takeWhile (·.isDigit), (c :: rest).dropWhile (·.isDigit) with
        | [], _ => none
        | ds, rest' => some (Json.num (digitsToNat ds), rest')
      else none

def parseObjBody : Nat → List Char → List (String × Json) →
    Option (Json × List Char)
  | 0, _, _ => none
  | fuel + 1, cs, acc =>
    match cs with
    | '\x7d' :: rest => some (Json.obj acc.reverse, rest)
    | '"' :: rest =>
      match parseStrChars rest with
      | none => none
      | some (key, rest1) =>
        match skipWs rest1 with
        | ':' :: rest2 =>
          match parseValue fuel rest2 with
          | none => none
          | some (v, rest3) =>
            match skipWs rest3 with
            | ',' :: rest4 => parseObjBody fuel (skipWs rest4) ((⟨key⟩, v) :: acc)
            | '\x7d' :: rest4 => some (Json.obj ((⟨key⟩, v) :: acc).reverse, rest4)
            | _ => none
        | _ => none
    | _ => none

def parseArrBody : Nat → List Char → List Json → Option (Json × List Char)
  | 0, _, _ => none
  | fuel + 1, cs, acc =>
    match cs with
    | ']' :: rest => some (Json.arr acc.reverse, rest)
    | _ =>
      match parseValue fuel cs with
      | none => none
      | some (v, rest1) =>
        match skipWs rest1 with
        | ',' :: rest2 => parseArrBody fuel (skipWs rest2) (v :: acc)
        | ']' :: rest2 => some (Json.arr (v :: acc).reverse, rest2)
        | _ => none

end

/-- `JSON.parse` on the modelled fragment: a full-input parse, `none` models a thrown
SyntaxError. -/
def parseJson (s : String) : Option Json :=
  match parseValue (2 * s.data.length + 8) s.data with
  | some (v, rest) => if skipWs rest = [] then some v else none
  | none => none

def escapeStr (s : String) : String :=
  ⟨s.data.foldr (fun c acc =>
    if c = '"' then '\\' :: '"' :: acc
    else if c = '\\' then '\\' :: '\\' :: acc
    else if c = '\n' then '\\' :: 'n' :: acc
    else if c = '\t' then '\\' :: 't' :: acc
    else if c = '\r' then '\\' :: 'r' :: acc
    else c :: acc) []⟩

def spaces (n : Nat) : String := ⟨List.replicate n ' '⟩

mutual

/-- `JSON.stringify(v, null, 2)`: two-space indented rendering. -/
def stringifyVal : Json → Nat → String
  | Json.null, _ => "null"
  | Json.bool true, _ => "true"
  | Json.bool false, _ => "false"
  | Json.num n, _ => toString n
  | Json.str s, _ => "\"" ++ escapeStr s ++ "\""
  | Json.arr [], _ => "[]"
  | Json.arr (e :: es), ind =>
    "[\n" ++ stringifyItems (e :: es) (ind + 2) ++ "\n" ++ spaces ind ++ "]"
  | Json.obj [], _ => "\x7b\x7d"
  | Json.obj (f :: fs), ind =>
    "\x7b\n" ++ stringifyFields (f :: fs) (ind + 2) ++ "\n" ++ spaces ind ++ "\x7d"

def stringifyItems : List Json → Nat → String
  | [], _ => ""
  | [e], ind => spaces ind ++ stringifyVal e ind
  | e :: e' :: es, ind =>
    spaces ind ++ stringifyVal e ind ++ ",\n" ++ stringifyItems (e' :: es) ind

def stringifyFields : List (String × Json) → Nat → String
  | [], _ => ""
  | [(k, v)], ind => spaces ind ++ "\"" ++ escapeStr k ++ "\": " ++ stringifyVal v ind
  | (k, v) :: f :: fs, ind =>
    spaces ind ++ "\"" ++ escapeStr k ++ "\": " ++ stringifyVal v ind ++ ",\n" ++
      stringifyFields (f :: fs) ind

end

/-- JS object field read on a parsed JSON object. -/
def objGet : List (String × Json) → String → Option Json
  | [], _ => none
  | (k, v) :: rest, key => if k = key then some v else objGet rest key

/-- JS object field assignment on a parsed JSON object. -/
def objSet : List (String × Json) → String → Json → List (String × Json)
  | [], key, v => [(key, v)]
  | (k, w) :: rest, key, v =>
    if k = key then (key, v) :: rest else (k, w) :: objSet rest key v

/-!
## SandpackAdapter.runCommand / handleNpmInstall (providers.ts lines 185-274)
-/

/-- JS `String.prototype.trim`. -/
def strTrim (s : String) : String :=
  ⟨((s.data.dropWhile isWsChar).reverse.dropWhile isWsChar).reverse⟩

/-- `packagesStr.split(/\s+/).filter(Boolean)` (line 241). -/
def wordsAux : List Char → List Char → List String
  | [], acc => if acc.isEmpty then [] else [⟨acc.reverse⟩]
  | c :: rest, acc =>
    if isWsChar c then
      if acc.isEmpty then wordsAux rest [] else ⟨acc.reverse⟩ :: wordsAux rest []
    else wordsAux rest (c :: acc)

def splitWs (s : String) : List String := wordsAux s.data []

/-- One `name[@version]` token (lines 244-262): flag tokens (leading `-`) are skipped;
`lastIndexOf('@') > 0` splits name and version (a scoped name without a version keeps its
leading `@` whole); otherwise the version defaults to `latest`. -/
def parsePkgToken (pkg : String) : Option (String × String) :=
  if strStartsWith pkg "-" then none
  else
    match List.findIdx? (· = '@') pkg.data.reverse with
    | some i =>
      let atIndex := pkg.data.length - 1 - i
      if atIndex > 0 then
        some (⟨pkg.data.take atIndex⟩, ⟨pkg.data.drop (atIndex + 1)⟩)
      else some (pkg, "latest")
    | none => some (pkg, "latest")

/-- The upsert loop over the parsed tokens (lines 244-262), collecting the installed
`name@version` strings. -/
def installFold (deps : List (String × Json)) (installed : List String) :
    List String → List (String × Json) × List String
  | [] => (deps, installed)
  | pkg :: rest =>
    match parsePkgToken pkg with
    | none => installFold deps installed rest
    | some (name, version) =>
      installFold (objSet deps name (Json.str version))
        (installed ++ [name ++ "@" ++ version]) rest

def joinLines : List String → String
  | [] => ""
  | [s] => s
  | s :: s' :: rest => s ++ "\n" ++ joinLines (s' :: rest)

def defaultPackageJson : List (String × Json) :=
  [("name", Json.str "sandbox"), ("version", Json.str "1.0.0"),
   ("dependencies", Json.obj [])]

/-- The result of the command: its output, the `onFileUpdate` calls, and the
`onDependenciesChanged` invocations (the SandboxManager wiring registers the callback). -/
structure NpmResult where
  output : String
  fileUpdates : List (String × String)
  depsEvents : List (List (String × Json))
deriving Repr

/-- JS truthiness of a JSON value (the `!x` test at line 236). -/
def jsTruthy : Json → Bool
  | Json.null => false
  | Json.bool b => b
  | Json.num n => decide (n ≠ 0)
  | Json.str s => decide (s ≠ "")
  | Json.obj _ => true
  | Json.arr _ => true

/-- JS own-enumerable-property spread of a value into a string-keyed table:
objects keep their fields, arrays and strings expose index keys, primitives and null
spread to nothing. -/
def spreadJson : Json → List (String × Json)
  | Json.obj fields => fields
  | Json.arr elems => elems.enum.map (fun p => (toString p.1, p.2))
  | Json.str s => s.data.enum.map (fun p => (toString p.1, Json.str ⟨[p.2]⟩))
  | _ => []

def npmOutput (installed : List String) : String :=
  joinLines (installed.map (fun p => "+ " ++ p)) ++ "\n\nadded " ++
    toString installed.length ++ " package(s)\n"

/-- The ordinary success path of `handleNpmInstall`: upsert the tokens into the table
`d`, persist the manifest with the updated table in place, fire the callback once with
the full table. -/
def npmOkFromDeps (fields : List (String × Json)) (d : List (String × Json))
    (packagesStr : String) : NpmResult :=
  { output := npmOutput (installFold d [] (splitWs packagesStr)).2
    fileUpdates := [("/package.json",
      stringifyVal (Json.obj (objSet fields "dependencies"
        (Json.obj (installFold d [] (splitWs packagesStr)).1))) 0)]
    depsEvents := [(installFold d [] (splitWs packagesStr)).1] }

/-- The `packageJson` value right after the try/catch of `handleNpmInstall`
(lines 229-234): the manifest content at /package.json (falling back to package.json),
with JS-falsy content and `JSON.parse` failures replaced by the default manifest. -/
def manifestJson (files : FMap) : Json :=
  match (FMap.get files "/package.json").or (FMap.get files "package.json") with
  | none => Json.obj defaultPackageJson
  | some s =>
    if s = "" then Json.obj defaultPackageJson
    else
      match parseJson s with
      | some v => v
      | none => Json.obj defaultPackageJson

/-- The object-manifest continuation of `handleNpmInstall` (lines 236-273), one arm per
shape of the parsed manifest's own `dependencies` field (see the doc comment on
`handleNpmInstall`). -/
def handleNpmInstallObj (fields : List (String × Json)) (packagesStr : String) :
    Except String NpmResult :=
  match objGet fields "dependencies" with
  | some (Json.obj d) => Except.ok (npmOkFromDeps fields d packagesStr)
  | some (Json.arr a) =>
    Except.ok
      { output := npmOutput (installFold [] [] (splitWs packagesStr)).2
        fileUpdates := [("/package.json", stringifyVal (Json.obj fields) 0)]
        depsEvents :=
          [spreadJson (Json.arr a) ++ (installFold [] [] (splitWs packagesStr)).1] }
  | some v =>
    if jsTruthy v then
      if (installFold [] [] (splitWs packagesStr)).2.isEmpty then
        Except.ok
          { output := npmOutput (installFold [] [] (splitWs packagesStr)).2
            fileUpdates := [("/package.json", stringifyVal (Json.obj fields) 0)]
            depsEvents := [spreadJson v] }
      else Except.error "TypeError: cannot create property on primitive dependencies"
    else Except.ok (npmOkFromDeps fields [] packagesStr)
  | none => Except.ok (npmOkFromDeps fields [] packagesStr)

/-- `handleNpmInstall(packagesStr)` (providers.ts lines 224-274). Inside the try/catch
(lines 229-234) the manifest string at /package.json (falling back to package.json) is
read; JS-falsy content and `JSON.parse` failures fall back to the default
`{name:'sandbox',version:'1.0.0',dependencies:{}}`. The `dependencies` check at line 236
and the upsert loop run OUTSIDE the catch, so:

* a manifest parsing to `null` or a primitive throws a TypeError there — the command
  rejects with no persist and no dependency event (`Except.error`);
* a manifest parsing to an array is an object in JS: attaching `dependencies` to it
  succeeds, the loop upserts into that fresh table, but `JSON.stringify` serializes only
  the index elements, so the persisted content is the bare array while the callback
  carries the upserted table;
* with an object manifest, a truthy object-valued `dependencies` table is used as is and
  a falsy or absent one is replaced by `{}` before the upserts; an array-valued table
  accepts named upserts that the serializer drops while the callback's spread lists the
  index entries before them (package names that are canonical array indices, which no
  claim or spec sentence exercises, are not modelled); any other truthy value makes the
  first upsert throw, and when no token installs, the field is left unchanged and the
  callback receives the value's spread. -/
def handleNpmInstall (files : FMap) (packagesStr : String) : Except String NpmResult :=
  match manifestJson files with
  | Json.obj fields => handleNpmInstallObj fields packagesStr
  | Json.arr elems =>
    Except.ok
      { output := npmOutput (installFold [] [] (splitWs packagesStr)).2
        fileUpdates := [("/package.json", stringifyVal (Json.arr elems) 0)]
        depsEvents := [(installFold [] [] (splitWs packagesStr)).1] }
  | _ => Except.error "TypeError: cannot read properties of a non-object manifest"

/-!
The npm-install interception regex
`/npm\s+(?:install|i|add)\s+(?:--save\s+|--save-dev\s+|-[SD]\s+)?(.+)/` (line 188),
modelled with explicit backtracking: the pattern is unanchored (first matching start
position wins), `\s+` backtracks from the greediest consumption, the alternations are
tried left to right, and `(.+)` greedily captures to the end of the line.
-/

def matchLit (lit : List Char) (cs : List Char) : Option (List Char) :=
  if lit.isPrefixOf cs then some (cs.drop lit.length) else none

/-- Remainders after consuming one-or-more whitespace characters, greediest first. -/
def wsRemainders : List Char → List (List Char)
  | c :: rest => if isWsChar c then wsRemainders rest ++ [rest] else []
  | [] => []

/-- `(.+)`: one or more non-newline characters, greedy. -/
def captureRest (cs : List Char) : Option (List Char) :=
  let cap := cs.takeWhile (fun c => ¬ c = '\n')
  if cap.isEmpty then none else some cap

def firstCap : List (List Char) → Option (List Char)
  | [] => none
  | c :: rest =>
    match captureRest c with
    | some cap => some cap
    | none => firstCap rest

/-- A flag alternative: the literal, then `\s+`, then the capture. -/
def flagAlt (lit : String) (cs : List Char) : Option (List Char) :=
  match matchLit lit.data cs with
  | some r => firstCap (wsRemainders r)
  | none => none

/-- After `npm\s+(?:install|i|add)\s+`: the optional flag group then the capture. -/
def afterKeywordWs (cs : List Char) : Option (List Char) :=
  (flagAlt "--save" cs).orElse (fun _ =>
    (flagAlt "--save-dev" cs).orElse (fun _ =>
      (flagAlt "-S" cs).orElse (fun _ =>
        (flagAlt "-D" cs).orElse (fun _ => captureRest cs))))

def firstFlags : List (List Char) → Option (List Char)
  | [] => none
  | c :: rest =>
    match afterKeywordWs c with
    | some cap => some cap
    | none => firstFlags rest

/-- After `npm\s+`: one of the keywords, then `\s+` with backtracking. -/
def afterNpmWs (cs : List Char) : Option (List Char) :=
  (match matchLit "install".data cs with
   | some r => firstFlags (wsRemainders r)
   | none => none).orElse (fun _ =>
    (match matchLit "i".data cs with
     | some r => firstFlags (wsRemainders r)
     | none => none).orElse (fun _ =>
      match matchLit "add".data cs with
      | some r => firstFlags (wsRemainders r)
      | none => none))

def firstKw : List (List Char) → Option (List Char)
  | [] => none
  | c :: rest =>
    match afterNpmWs c with
    | some cap => some cap
    | none => firstKw rest

def matchNpmAt (cs : List Char) : Option (List Char) :=
  match matchLit "npm".data cs with
  | some r => firstKw (wsRemainders r)
  | none => none

def scanNpm : List Char → Option (List Char)
  | [] => none
  | c :: rest =>
    match matchNpmAt (c :: rest) with
    | some cap => some cap
    | none => scanNpm rest

/-- `command.match(npm-install-regex)` returning the first capture group. -/
def npmInstallMatch (command : String) : Option String :=
  (scanNpm command.data).map (fun cap => ⟨cap⟩)

/-- `replace(/^["']|["']$/g, '')` (line 202). -/
def isQuote (c : Char) : Bool := c = '"' ∨ c = '\''

def stripQuotes (s : String) : String :=
  let d1 := match s.data with
    | c :: rest => if isQuote c then rest else s.data
    | [] => []
  let d2 := match d1.reverse with
    | c :: rest => if isQuote c then rest.reverse else d1
    | [] => d1
  ⟨d2⟩

/-- `readFile` (providers.ts lines 151-166) as an Option: the normalized path, then the
path without the leading slash; `none` models the thrown not-found error. -/
def readFileOpt (files : FMap) (path : String) : Option String :=
  match FMap.get files (normalizePath path) with
  | some c => some c
  | none =>
    FMap.get files
      (if strStartsWith (normalizePath path) "/" then strDrop (normalizePath path) 1
       else normalizePath path)

def dedupInsert (l : List String) (x : String) : List String :=
  if l.contains x then l else l ++ [x]

/-- The entry collection of `handleLs` (lines 281-294): first path segments of the files
under the target prefix, deduplicated in insertion order. -/
def lsEntries (files : FMap) (dir : String) : List String :=
  (FMap.keys files).foldl (fun acc filePath =>
    if strStartsWith (normalizePath filePath) dir then
      let seg : String :=
        ⟨(strDrop (normalizePath filePath) dir.length).data.takeWhile (fun c => ¬ c = '/')⟩
      if seg = "" then acc else dedupInsert acc seg
    else acc) []

/-- The root fallback of `handleLs` (lines 296-305). -/
def lsRootEntries (files : FMap) : List String :=
  (FMap.keys files).foldl (fun acc filePath =>
    let seg : String :=
      ⟨(strDrop (normalizePath filePath) 1).data.takeWhile (fun c => ¬ c = '/')⟩
    if seg = "" then acc else dedupInsert acc seg) []

/-- `handleLs` (providers.ts lines 276-308). -/
def handleLs (files : FMap) (command : String) : String :=
  let targetDir := normalizePath ((splitWs command).getD 1 "/")
  let dir := if strEndsWith targetDir "/" then targetDir else targetDir ++ "/"
  let entries := lsEntries files dir
  let entries := if entries.isEmpty ∧ targetDir = "/" then lsRootEntries files else entries
  joinLines (entries.mergeSort (· ≤ ·)) ++ "\n"

/-- `runCommand` (providers.ts lines 185-222): intercept the npm-install pattern first
(its TypeError propagates to the caller as a rejection), then the shell polyfills pwd,
echo, ls and cat, else the generic browser-polyfill acknowledgement. Non-npm branches
touch no files, fire no dependency events and never throw (cat catches its own
not-found error, lines 212-217). -/
def SandpackAdapter.runCommand (files : FMap) (command : String) :
    Except String NpmResult :=
  match npmInstallMatch command with
  | some capture => handleNpmInstall files (strTrim capture)
  | none =>
    let trimmed := strTrim command
    if trimmed = "pwd" then Except.ok ⟨"/project/sandbox\n", [], []⟩
    else if strStartsWith trimmed "echo " then
      Except.ok ⟨stripQuotes (strDrop trimmed 5) ++ "\n", [], []⟩
    else if trimmed = "ls" ∨ strStartsWith trimmed "ls " then
      Except.ok ⟨handleLs files trimmed, [], []⟩
    else if strStartsWith trimmed "cat " then
      match readFileOpt files (strTrim (strDrop trimmed 4)) with
      | some content => Except.ok ⟨content, [], []⟩
      | none =>
        Except.ok
          ⟨"cat: " ++ strTrim (strDrop trimmed 4) ++ ": No such file or directory\n",
            [], []⟩
    else
      Except.ok
        ⟨"[sandbox] Command executed (browser polyfill): " ++ trimmed ++ "\n", [], []⟩

theorem findIdx?_none_of (p : Char → Bool) :
    ∀ (l : List Char) (i : Nat), (∀ c ∈ l, ¬ p c) → List.findIdx? p l i = none := by
  intro l
  induction l with
  | nil => intro i _; rfl
  | cons c rest ih =>
    intro i h
    have hc : ¬ p c := h c (List.mem_cons_self _ _)
    show List.findIdx? p (c :: rest) i = none
    rw [List.findIdx?_cons, if_neg hc]
    exact ih (i + 1) (fun x hx => h x (List.mem_cons_of_mem _ hx))

theorem findIdx?_append_of_none (p : Char → Bool) :
    ∀ (l1 l2 : List Char) (i : Nat), (∀ c ∈ l1, ¬ p c) →
      List.findIdx? p (l1 ++ l2) i = List.findIdx? p l2 (i + l1.length) := by
  intro l1
  induction l1 with
  | nil => intro l2 i _; simp
  | cons c rest ih =>
    intro l2 i h
    have hc : ¬ p c := h c (List.mem_cons_self _ _)
    show List.findIdx? p (c :: (rest ++ l2)) i = _
    rw [List.findIdx?_cons, if_neg hc,
      ih l2 (i + 1) (fun x hx => h x (List.mem_cons_of_mem _ hx))]
    congr 1
    simp
    omega

theorem objGet_objSet (deps : List (String × Json)) (name : String) (v : Json)
    (q : String) :
    objGet (objSet deps name v) q = if q = name then some v else objGet deps q := by
  induction deps with
  | nil =>
    by_cases h : q = name
    · subst h; simp [objSet, objGet]
    · have h1 : ¬ name = q := fun hh => h hh.symm
      simp [objSet, objGet, if_neg h, if_neg h1]
  | cons p rest ih =>
    by_cases hp : p.1 = name
    · subst hp
      by_cases hq : q = p.1
      · subst hq; simp [objSet, objGet]
      · have h1 : ¬ p.1 = q := fun hh => hq hh.symm
        simp only [objSet, if_pos rfl, objGet, if_neg h1, if_neg hq]
    · simp only [objSet, if_neg hp, objGet]
      by_cases hq : p.1 = q
      · have hqk : ¬ q = name := fun h => hp (hq.trans h)
        simp only [if_pos hq, if_neg hqk]
      · simp only [if_neg hq, ih]

theorem string_ne_empty_data {s : String} (h : s ≠ "") : s.data ≠ [] := by
  intro hd
  exact h (string_eq_of_data hd)

/-- C5: `runCommand('npm install lodash@4.17.21')` on manifest `{"dependencies":{}}`
persists a manifest whose dependencies table maps lodash to "4.17.21" through exactly one
file update at /package.json, and fires exactly one dependency-changed event carrying
that full table. When no manifest file exists, `handleNpmInstall` creates it: the command
succeeds with exactly one manifest update at /package.json and exactly one dependency
event, and likewise for any existing manifest parsing to an object whose `dependencies`
field is an object; but a manifest whose JSON parses to `null` makes the command reject
with a thrown TypeError (the `packageJson.dependencies` read at line 236 sits outside the
try/catch), performing no file update and no dependency event. A bare token defaults its
version to "latest"; a `name@version` token is split at the last `@`; each parsed token
is upserted into the dependency table. `runCommand [] 'npm install react'` creates the
manifest with react mapped to latest. -/
theorem npm_install_spec :
    ((SandpackAdapter.runCommand [("/package.json", "\x7b\"dependencies\":\x7b\x7d\x7d")]
        "npm install lodash@4.17.21").toOption.map (fun r => r.depsEvents) =
      some [[("lodash", Json.str "4.17.21")]] ∧
     (SandpackAdapter.runCommand [("/package.json", "\x7b\"dependencies\":\x7b\x7d\x7d")]
        "npm install lodash@4.17.21").toOption.map
          (fun r => r.fileUpdates.map (fun u => (u.1, parseJson u.2))) =
      some [("/package.json",
        some (Json.obj [("dependencies", Json.obj [("lodash", Json.str "4.17.21")])]))]) ∧
    (∀ files packagesStr,
      (FMap.get files "/package.json").or (FMap.get files "package.json") = none →
      ∃ r, handleNpmInstall files packagesStr = Except.ok r ∧
        r.fileUpdates.map (fun u => u.1) = ["/package.json"] ∧
        r.depsEvents.length = 1) ∧
    (∀ files packagesStr content fields d,
      (FMap.get files "/package.json").or (FMap.get files "package.json") =
        some content →
      content ≠ "" →
      parseJson content = some (Json.obj fields) →
      objGet fields "dependencies" = some (Json.obj d) →
      handleNpmInstall files packagesStr =
        Except.ok (npmOkFromDeps fields d packagesStr) ∧
      (npmOkFromDeps fields d packagesStr).fileUpdates.map (fun u => u.1) =
        ["/package.json"] ∧
      (npmOkFromDeps fields d packagesStr).depsEvents =
        [(installFold d [] (splitWs packagesStr)).1]) ∧
    (∀ files packagesStr content,
      (FMap.get files "/package.json").or (FMap.get files "package.json") =
        some content →
      content ≠ "" →
      parseJson content = some Json.null →
      ∃ e, handleNpmInstall files packagesStr = Except.error e) ∧
    (∃ e, SandpackAdapter.runCommand [("/package.json", "null")]
        "npm install lodash@4.17.21" = Except.error e) ∧
    (∀ pkg : String, ¬ strStartsWith pkg "-" = true → (∀ c ∈ pkg.data, ¬ c = '@') →
      parsePkgToken pkg = some (pkg, "latest")) ∧
    (∀ name version : String, name ≠ "" →
      ¬ strStartsWith (name ++ "@" ++ version) "-" = true →
      (∀ c ∈ version.data, ¬ c = '@') →
      parsePkgToken (name ++ "@" ++ version) = some (name, version)) ∧
    (∀ deps name v q,
      objGet (objSet deps name (Json.str v)) q =
        if q = name then some (Json.str v) else objGet deps q) ∧
    ((SandpackAdapter.runCommand [] "npm install react").toOption.map
        (fun r => r.fileUpdates.map (fun u => (u.1, parseJson u.2))) =
      some [("/package.json",
        some (Json.obj [("name", Json.str "sandbox"), ("version", Json.str "1.0.0"),
          ("dependencies", Json.obj [("react", Json.str "latest")])]))]) := by
  refine ⟨⟨rfl, rfl⟩, ?_, ?_, ?_, ?_, ?_, ?_, ?_, rfl⟩
  · intro files packagesStr hnone
    have hmani : manifestJson files = Json.obj defaultPackageJson := by
      unfold manifestJson
      rw [hnone]
    refine ⟨npmOkFromDeps defaultPackageJson [] packagesStr, ?_, rfl, rfl⟩
    have hobj : handleNpmInstall files packagesStr =
        handleNpmInstallObj defaultPackageJson packagesStr := by
      unfold handleNpmInstall
      rw [hmani]
    exact hobj.trans rfl
  · intro files packagesStr content fields d hlook hne hparse hdeps
    have hmani : manifestJson files = Json.obj fields := by
      unfold manifestJson
      rw [hlook]
      show (if content = "" then Json.obj defaultPackageJson
        else match parseJson content with
          | some v => v
          | none => Json.obj defaultPackageJson) = Json.obj fields
      rw [if_neg hne, hparse]
    have hobj : handleNpmInstall files packagesStr =
        handleNpmInstallObj fields packagesStr := by
      unfold handleNpmInstall
      rw [hmani]
    have hrun : handleNpmInstallObj fields packagesStr =
        Except.ok (npmOkFromDeps fields d packagesStr) := by
      unfold handleNpmInstallObj
      rw [hdeps]
    exact ⟨hobj.trans hrun, rfl, rfl⟩
  · intro files packagesStr content hlook hne hparse
    have hmani : manifestJson files = Json.null := by
      unfold manifestJson
      rw [hlook]
      show (if content = "" then Json.obj defaultPackageJson
        else match parseJson content with
          | some v => v
          | none => Json.obj defaultPackageJson) = Json.null
      rw [if_neg hne, hparse]
    refine ⟨"TypeError: cannot read properties of a non-object manifest", ?_⟩
    unfold handleNpmInstall
    rw [hmani]
  · exact ⟨"TypeError: cannot read properties of a non-object manifest", rfl⟩
  · intro pkg hflag hat
    unfold parsePkgToken
    rw [if_neg hflag]
    rw [findIdx?_none_of _ pkg.data.reverse 0
      (fun c hc => by simpa using hat c (List.mem_reverse.mp hc))]
  · intro name version hname hflag hat
    have hdata : (name ++ "@" ++ version).data = name.data ++ '@' :: version.data := by
      rw [string_data_append, string_data_append]
      simp [show ("@" : String).data = ['@'] from rfl]
    have hrev : (name ++ "@" ++ version).data.reverse =
        version.data.reverse ++ '@' :: name.data.reverse := by
      rw [hdata]
      simp
    have hfind : List.findIdx? (fun c => decide (c = '@'))
        (name ++ "@" ++ version).data.reverse =
        some (0 + version.data.reverse.length) := by
      rw [hrev, findIdx?_append_of_none _ _ _ 0
        (fun c hc => by simpa using hat c (List.mem_reverse.mp hc)),
        List.findIdx?_cons]
      simp
    have hlen : (name ++ "@" ++ version).data.length =
        name.data.length + 1 + version.data.length := by
      rw [hdata]
      simp
      omega
    have hndata : name.data ≠ [] := string_ne_empty_data hname
    have hnlen : 0 < name.data.length := List.length_pos.mpr hndata
    have hidx2 : (name ++ "@" ++ version).data.length - 1 -
        (0 + version.data.reverse.length) = name.data.length := by
      rw [hlen, List.length_reverse]
      omega
    have htake : (name ++ "@" ++ version).data.take name.data.length = name.data := by
      rw [hdata]
      exact List.take_left name.data ('@' :: version.data)
    have hdrop : (name ++ "@" ++ version).data.drop (name.data.length + 1) =
        version.data := by
      rw [hdata, List.drop_append]
      rfl
    have hn : (⟨name.data⟩ : String) = name := by cases name; rfl
    have hv : (⟨version.data⟩ : String) = version := by cases version; rfl
    unfold parsePkgToken
    rw [if_neg hflag, hfind]
    show (if (name ++ "@" ++ version).data.length - 1 -
          (0 + version.data.reverse.length) > 0 then
        some ((⟨List.take ((name ++ "@" ++ version).data.length - 1 -
            (0 + version.data.reverse.length)) (name ++ "@" ++ version).data⟩ : String),
          (⟨List.drop ((name ++ "@" ++ version).data.length - 1 -
            (0 + version.data.reverse.length) + 1) (name ++ "@" ++ version).data⟩ : String))
      else some (name ++ "@" ++ version, "latest")) = some (name, version)
    rw [hidx2, if_pos hnlen, htake, hdrop, hn, hv]
  · intro deps name v q
    exact objGet_objSet deps name (Json.str v) q

theorem npm_install_spec_witness :
    (∃ r, handleNpmInstall [] "lodash@4.17.21" = Except.ok r ∧
      r.fileUpdates.map (fun u => u.1) = ["/package.json"] ∧
      r.depsEvents.length = 1) ∧
    (∃ e, handleNpmInstall [("/package.json", "null")] "react" = Except.error e) ∧
    parsePkgToken ("lodash" ++ "@" ++ "4.17.21") = some ("lodash", "4.17.21") ∧
    parsePkgToken "react" = some ("react", "latest") := by
  refine ⟨?_, ?_, ?_, ?_⟩
  · exact npm_install_spec.2.1 [] "lodash@4.17.21" rfl
  · exact npm_install_spec.2.2.2.1 [("/package.json", "null")] "react" "null" rfl
      (by decide) rfl
  · exact npm_install_spec.2.2.2.2.2.2.1 "lodash" "4.17.21" (by decide) (by decide)
      (by decide)
  · exact npm_install_spec.2.2.2.2.2.1 "react" (by decide) (by decide)
